import Mathlib

/-!
Verification of the generated-query validation and guarded-execution pipeline
of the GameScope service (`src/api/app.py`).

The Python source is shallowly embedded over `List Char` / `String`:

* Python `str.strip()` / `str.rstrip(";")` are modelled by `pyStrip` /
  `rstripSemis`;
* the regular expressions of the source (`FORBIDDEN`, `CATALOG_FORBIDDEN`,
  the fenced-block pattern of `extract_first_select`, the `SELECT|WITH`
  locator, the table-reference pattern and the `LIMIT` pattern of
  `ensure_limit`) are embedded as executable scanners with the same
  word-boundary (`\b`), whitespace (`\s`) and digit (`\d`) semantics,
  interpreted over ASCII (Python's `re` with `re.IGNORECASE` agrees with
  this embedding on ASCII text; `Char.toLower` in Lean is the ASCII case
  map);
* `re.sub` replacement of every non-overlapping match is embedded by a
  fuelled scanner (`subLimitAux`), fuelled so that every definition stays
  kernel-executable.

The external collaborators (the HTTP layer, the completion service, the
`sqlglot` parser invoked at the very end of `sanitize_sql`, and the
database driver) are outside the embedding; the embedded
`sanitize_checks` covers exactly the textual policy checks of
`sanitize_sql` (app.py lines 159-178), which are the stages that decide
every `PolicyViolation` kind other than `SyntaxInvalid`.
-/

/-! ## Character classes (Python `re` over ASCII) -/

/-- Python whitespace (`\s` over ASCII and `str.strip()`'s default set):
space, tab, newline, carriage return, vertical tab, form feed. -/
def isPySpace (c : Char) : Bool :=
  c == ' ' || c == '\t' || c == '\n' || c == '\r' ||
    c == Char.ofNat 11 || c == Char.ofNat 12

/-- Python word character (`\w` over ASCII): letters, digits, underscore.
Used to decide the `\b` word boundaries of the source's regexes. -/
def isWordChar (c : Char) : Bool :=
  c.isAlphanum || c == '_'

/-- A `\b` word boundary holds before the current position when there is no
previous character (start of text) or the previous character is not a word
character.  `prev` is the character immediately before the scanner's
position, `none` at the start of the text. -/
def prevBoundary (prev : Option Char) : Bool :=
  match prev with
  | none => true
  | some p => !isWordChar p

/-- ASCII lowercasing (the case map `re.IGNORECASE` applies to an ASCII
pattern; identical to `Char.toLower`). -/
def lowerChar (c : Char) : Char :=
  if 65 ≤ c.toNat ∧ c.toNat ≤ 90 then Char.ofNat (c.toNat + 32) else c

/-- Case-insensitive literal match at the head of `s`: the pattern `pat` is
given lowercase, each text character is lowered before comparison (the
ASCII semantics of `re.IGNORECASE` on an ASCII pattern). -/
def startsWithCI : List Char → List Char → Bool
  | [], _ => true
  | _ :: _, [] => false
  | p :: ps, c :: cs => p == lowerChar c && startsWithCI ps cs

/-- `\b` after a match of length `k`: the character following the matched
span, if any, is not a word character. -/
def boundaryAfter (k : Nat) (s : List Char) : Bool :=
  match s.drop k with
  | [] => true
  | c :: _ => !isWordChar c

/-! ## Python `strip` / `rstrip` -/

/-- Python `str.rstrip()` (default whitespace set): remove every trailing
whitespace character. -/
def rstripWS : List Char → List Char
  | [] => []
  | c :: cs =>
    let r := rstripWS cs
    if r.isEmpty then (if isPySpace c then [] else [c]) else c :: r

/-- Python `str.rstrip(";")`: remove every trailing `';'` character. -/
def rstripSemis : List Char → List Char
  | [] => []
  | c :: cs =>
    let r := rstripSemis cs
    if r.isEmpty then (if c == ';' then [] else [c]) else c :: r

/-- Python `str.strip()`: drop leading whitespace, then trailing
whitespace. -/
def pyStrip (l : List Char) : List Char :=
  rstripWS (l.dropWhile isPySpace)

/-! ## GuardedExecutor: the fetch-side row cap of `run_sql`
(app.py line 120: `[dict(r._mapping) for i, r in enumerate(res) if i < max_rows]`).
The rows produced by the database cursor are abstracted as an arbitrary
list `res`; the embedding keeps exactly the comprehension's
enumerate-filter structure. -/

def run_sql_fetch {α : Type} (res : List α) (max_rows : Nat) : List α :=
  (res.enum.filter (fun p => p.1 < max_rows)).map Prod.snd

/-! ## ResultShaper: the visual-mode series derivation of `ask_visual`
(app.py lines 330-334).  A row is modelled as a `(label, value)` pair
where the value is `some n` when `pd.to_numeric` can parse the cell and
`none` when it cannot (`errors="coerce"` turns it into NaN, then
`.fillna(0)` makes it zero).  The label slice models
`.astype(str).str.slice(0, 40)`; the sort models
`sort_values("value", ascending=False)` and `head(30)`.  `mergeSort` is
one admissible comparison sort; the source's sort is only specified up to
the ordering of ties. -/

def shape_series (rows : List (String × Option Int)) : List (String × Int) :=
  let coerced := rows.map (fun r => (String.mk (r.1.data.take 40), r.2.getD 0))
  (coerced.mergeSort (fun a b => b.2 ≤ a.2)).take 30

/-! ## Lemmas for the executor's fetch cap (C6) -/

theorem enumFrom_filter_lt_map {α : Type} (n : Nat) :
    ∀ (k : Nat) (res : List α),
      ((List.enumFrom k res).filter (fun p => p.1 < n)).map Prod.snd =
        if k < n then res.take (n - k) else [] := by
  intro k res
  induction res generalizing k with
  | nil => simp
  | cons c cs ih =>
    simp only [List.enumFrom, List.filter]
    by_cases h : k < n
    · have hd : decide (k < n) = true := by simpa using h
      rw [hd]
      simp only [List.map]
      rw [ih (k + 1)]
      by_cases h1 : k + 1 < n
      · have : n - k = (n - (k + 1)) + 1 := by omega
        simp [h, h1, this, List.take_succ_cons]
      · have hk : n - k = 1 := by omega
        simp [h, h1, hk]
    · have hd : decide (k < n) = false := by simpa using h
      rw [hd]
      have h1 : ¬ k + 1 < n := by omega
      rw [ih (k + 1)]
      simp [h, h1]

theorem run_sql_fetch_eq_take {α : Type} (res : List α) (n : Nat) :
    run_sql_fetch res n = res.take n := by
  unfold run_sql_fetch
  rw [List.enum_eq_enumFrom, enumFrom_filter_lt_map]
  by_cases h : 0 < n
  · simp [h]
  · have hn : n = 0 := by omega
    simp [hn]

/-- C6: `GuardedExecutor.execute` (the row-reading loop of `run_sql`,
app.py line 120) returns at most `max_rows` rows regardless of how many
rows the underlying cursor `res` produced. -/
theorem run_sql_fetch_length_le {α : Type} (res : List α) (max_rows : Nat) :
    (run_sql_fetch res max_rows).length ≤ max_rows := by
  rw [run_sql_fetch_eq_take]
  simp [List.length_take]

/-! ## Lemmas for the visual-mode series (C9) -/

/-- C9: for a non-empty result set, the derived chart series has length
`min 30 rows.length` (so rows with unparseable values are coerced to zero,
never dropped), is sorted by value in descending order, every label has at
most 40 characters, and every entry comes from an input row by the
slice-and-coerce transformation. -/
theorem shape_series_spec (rows : List (String × Option Int)) (_h : rows ≠ []) :
    (shape_series rows).length = min 30 rows.length ∧
    (shape_series rows).Pairwise (fun a b => b.2 ≤ a.2) ∧
    (∀ p ∈ shape_series rows, p.1.length ≤ 40) ∧
    (∀ p ∈ shape_series rows,
      ∃ r ∈ rows, p = (String.mk (r.1.data.take 40), r.2.getD 0)) := by
  refine ⟨?_, ?_, ?_, ?_⟩
  · simp [shape_series, List.length_take, List.length_mergeSort]
  · have hs := @List.sorted_mergeSort (String × Int)
      (fun a b : String × Int => decide (b.2 ≤ a.2))
      (fun a b c hab hbc => by
        simp only [decide_eq_true_eq] at *; exact le_trans hbc hab)
      (fun a b => by
        simp only [Bool.or_eq_true, decide_eq_true_eq]; exact le_total b.2 a.2)
      (rows.map (fun r => (String.mk (r.1.data.take 40), r.2.getD 0)))
    have hp := hs.sublist (List.take_sublist 30 _)
    exact hp.imp (by intro a b hab; simpa using hab)
  · intro p hp
    have hp1 : p ∈ (rows.map
        (fun r => (String.mk (r.1.data.take 40), r.2.getD 0))).mergeSort
          (fun a b : String × Int => decide (b.2 ≤ a.2)) :=
      List.mem_of_mem_take hp
    have hp2 := (List.mergeSort_perm _ _).mem_iff.mp hp1
    obtain ⟨r, _, hr⟩ := List.mem_map.mp hp2
    have hpe : p.1 = String.mk (r.1.data.take 40) := by rw [← hr]
    have hlen : (String.mk (r.1.data.take 40)).length = (r.1.data.take 40).length := rfl
    rw [hpe, hlen]
    exact List.length_take_le 40 r.1.data
  · intro p hp
    have hp1 : p ∈ (rows.map
        (fun r => (String.mk (r.1.data.take 40), r.2.getD 0))).mergeSort
          (fun a b : String × Int => decide (b.2 ≤ a.2)) :=
      List.mem_of_mem_take hp
    have hp2 := (List.mergeSort_perm _ _).mem_iff.mp hp1
    obtain ⟨r, hrm, hr⟩ := List.mem_map.mp hp2
    exact ⟨r, hrm, hr.symm⟩

/-- Witness for C9 at a concrete result set containing an unparseable
value. -/
theorem shape_series_spec_witness :
    (shape_series [("alpha", some 3), ("bad", none), ("beta", some 5)]).length
      = min 30 3 :=
  (shape_series_spec [("alpha", some 3), ("bad", none), ("beta", some 5)]
    (by decide)).1

/-! ## PolicyValidator: the textual checks of `sanitize_sql`
(app.py lines 159-178).

`FORBIDDEN = \b(INSERT|UPDATE|DELETE|DROP|ALTER|TRUNCATE|CREATE|GRANT|REVOKE|COPY)\b` (IGNORECASE)
`CATALOG_FORBIDDEN = \b(pg_catalog|information_schema)\b` (IGNORECASE)

A whole-word search scans every position of the text; at a position it
requires a `\b` boundary before the keyword (tracked through the previous
character), the keyword itself case-insensitively, and a `\b` boundary
after it. -/

/-- One keyword matched at the head of `s`, with the trailing `\b`. -/
def wordAt (kw : List Char) (s : List Char) : Bool :=
  startsWithCI kw s && boundaryAfter kw.length s

/-- `re.search` of `\b(kw1|kw2|...)\b` over `s`, with `prev` the character
before the current position. -/
def findWordAux (kws : List (List Char)) : Option Char → List Char → Bool
  | _, [] => false
  | prev, c :: cs =>
    (prevBoundary prev && kws.any (fun kw => wordAt kw (c :: cs))) ||
      findWordAux kws (some c) cs

/-- The forbidden data/schema-mutating keywords of `FORBIDDEN`
(app.py lines 38-41). -/
def forbiddenKws : List (List Char) :=
  ["insert", "update", "delete", "drop", "alter",
   "truncate", "create", "grant", "revoke", "copy"].map String.data

/-- The forbidden system schemas of `CATALOG_FORBIDDEN` (app.py line 49). -/
def catalogKws : List (List Char) :=
  ["pg_catalog", "information_schema"].map String.data

/-- `re.match(r"^(SELECT|WITH)\b", s, re.I)`: anchored at the start. -/
def startsSelectWith (s : List Char) : Bool :=
  (startsWithCI "select".data s && boundaryAfter 6 s) ||
    (startsWithCI "with".data s && boundaryAfter 4 s)

/-- The table-reference pattern matched at the head of `s`:
`(FROM|JOIN)\s+public\.rawg_games\b` (both alternatives have length 4;
`\s+` requires at least one whitespace character; the trailing `\b`
follows the 17 characters of `public.rawg_games`). -/
def tableRefAt (s : List Char) : Bool :=
  (startsWithCI "from".data s || startsWithCI "join".data s) &&
    (let r := s.drop 4
     let sp := r.takeWhile isPySpace
     !sp.isEmpty &&
       (let r2 := r.dropWhile isPySpace
        startsWithCI "public.rawg_games".data r2 && boundaryAfter 17 r2))

/-- `re.search(r"\b(FROM|JOIN)\s+public\.rawg_games\b", s, re.I)`. -/
def hasTableRefAux : Option Char → List Char → Bool
  | _, [] => false
  | prev, c :: cs =>
    (prevBoundary prev && tableRefAt (c :: cs)) || hasTableRefAux (some c) cs

/-- `"--" in s or "/*" in s or "*/" in s`: substring containment. -/
def containsSub (pat : List Char) : List Char → Bool
  | [] => pat.isEmpty
  | c :: cs => pat.isPrefixOf (c :: cs) || containsSub pat cs

/-- The closed set of `PolicyViolation` kinds that the textual stages of
`sanitize_sql` can raise (each corresponds to one `raise ValueError`
in app.py lines 162-178). -/
inductive Violation where
  | MultipleStatements
  | CommentsPresent
  | ForbiddenKeyword
  | ForbiddenSchema
  | NotReadStatement
  | WrongTable
deriving DecidableEq, Repr

/-- The trimmed candidate of `sanitize_sql` line 160:
`s = (sql or "").strip().rstrip(";")`. -/
def sqlTrim (sql : String) : List Char :=
  rstripSemis (pyStrip sql.data)

/-- The textual checks of `sanitize_sql` (app.py lines 159-178) in source
order, short-circuiting.  The final stage of the source,
`sqlglot.parse_one(s, read="postgres")` (line 180), is an external
parser outside the embedding; it can only raise a parse error
(`SyntaxInvalid`), never one of the `Violation` kinds decided here, so
every claim about a specific `Violation` kind is settled by this
function. -/
def sanitize_checks (sql : String) : Except Violation String :=
  let s := sqlTrim sql
  if s.any (· == ';') then .error .MultipleStatements
  else if containsSub "--".data s || containsSub "/*".data s ||
      containsSub "*/".data s then .error .CommentsPresent
  else if findWordAux forbiddenKws none s then .error .ForbiddenKeyword
  else if findWordAux catalogKws none s then .error .ForbiddenSchema
  else if !startsSelectWith s then .error .NotReadStatement
  else if !hasTableRefAux none s then .error .WrongTable
  else .ok (String.mk s)

instance {ε α : Type} [DecidableEq ε] [DecidableEq α] :
    DecidableEq (Except ε α)
  | .error e, .error f =>
    if h : e = f then .isTrue (by rw [h])
    else .isFalse (by intro hc; cases hc; exact h rfl)
  | .error _, .ok _ => .isFalse (by intro h; cases h)
  | .ok _, .error _ => .isFalse (by intro h; cases h)
  | .ok a, .ok b =>
    if h : a = b then .isTrue (by rw [h])
    else .isFalse (by intro hc; cases hc; exact h rfl)

/-! ## C1: rejection of multiple statements -/

/-- C1 counterexample: a candidate containing two statement-terminator
characters — a doubled trailing `";;"` — is **not** rejected with
`MultipleStatements`: `rstrip(";")` on line 160 removes every trailing
terminator (not a single one), so the candidate passes all textual checks
(and the final `sqlglot` parse, which accepts
`SELECT * FROM public.rawg_games`).  This refutes the claim that any
candidate with two terminators is rejected. -/
theorem sanitize_two_trailing_semis_accepted :
    (("SELECT * FROM public.rawg_games;;".data.filter (· == ';')).length = 2)
      ∧ sanitize_checks "SELECT * FROM public.rawg_games;;" =
        .ok "SELECT * FROM public.rawg_games" := by
  constructor
  · decide
  · decide

/-- C1 amended: `validate` rejects with `MultipleStatements` exactly when a
terminator character remains after trimming **all** trailing terminators
(and surrounding whitespace) — not after trimming a single one.  In
particular two terminators separated by any other text are still
rejected. -/
theorem sanitize_multiple_statements_iff (sql : String) :
    sanitize_checks sql = .error .MultipleStatements ↔
      ∃ c ∈ sqlTrim sql, c = ';' := by
  unfold sanitize_checks
  by_cases h : (sqlTrim sql).any (· == ';')
  · simp only [h, if_true]
    constructor
    · intro _
      obtain ⟨c, hc, he⟩ := List.any_eq_true.mp h
      exact ⟨c, hc, by simpa using he⟩
    · intro _; trivial
  · simp only [h, if_false]
    constructor
    · intro hc
      exfalso
      revert hc
      split
      · simp_all
      · split
        · simp_all
        · split
          · simp_all
          · split
            · simp_all
            · split
              · simp_all
              · split
                · simp_all
                · simp_all
    · intro ⟨c, hc, he⟩
      exact absurd (List.any_eq_true.mpr ⟨c, hc, by simpa using he⟩) h

/-! ## C2: forbidden keywords as whole words -/

/-- C2 counterexample: in `"SELECT 1; drop x"` the forbidden keyword
`drop` occurs as a standalone whole word, but `validate` rejects with
`MultipleStatements` (the terminator check runs first and
short-circuits), not with `ForbiddenKeyword`.  This refutes the second
half of the claim as universally stated. -/
theorem sanitize_standalone_keyword_not_fk :
    findWordAux forbiddenKws none (sqlTrim "SELECT 1; drop x") = true ∧
      sanitize_checks "SELECT 1; drop x" ≠ .error .ForbiddenKeyword := by
  constructor
  · decide
  · decide

/-- C2 amended: (a) a candidate in which no forbidden keyword occurs as a
whole word — only as a substring of a longer identifier — is never
rejected with `ForbiddenKeyword`; (b) a candidate in which a forbidden
keyword occurs as a standalone whole word is rejected with
`ForbiddenKeyword` **provided** no earlier short-circuiting check fires
(no remaining terminator character and no comment marker). -/
theorem sanitize_forbidden_keyword_spec (sql : String) :
    (findWordAux forbiddenKws none (sqlTrim sql) = false →
      sanitize_checks sql ≠ .error .ForbiddenKeyword) ∧
    (findWordAux forbiddenKws none (sqlTrim sql) = true →
      (sqlTrim sql).any (· == ';') = false →
      (containsSub "--".data (sqlTrim sql) ||
        containsSub "/*".data (sqlTrim sql) ||
        containsSub "*/".data (sqlTrim sql)) = false →
      sanitize_checks sql = .error .ForbiddenKeyword) := by
  constructor
  · intro hf
    simp only [sanitize_checks, hf]
    split
    · simp
    · split
      · simp
      · simp only [Bool.false_eq_true, if_false]
        split
        · simp
        · split
          · simp
          · split
            · simp
            · simp
  · intro hf h1 h2
    simp only [sanitize_checks, hf, h1, h2]
    simp

/-- Witness for C2 (amended): the identifier `updated` containing the
keyword `update` is not rejected with `ForbiddenKeyword`, while a
standalone `DROP` with no earlier violation is. -/
theorem sanitize_forbidden_keyword_spec_witness :
    (sanitize_checks "SELECT updated FROM public.rawg_games" ≠
      .error .ForbiddenKeyword) ∧
    sanitize_checks "DROP TABLE x" = .error .ForbiddenKeyword :=
  ⟨(sanitize_forbidden_keyword_spec "SELECT updated FROM public.rawg_games").1
      (by decide),
   (sanitize_forbidden_keyword_spec "DROP TABLE x").2
      (by decide) (by decide) (by decide)⟩

/-! ## C3: the single-table check -/

set_option maxRecDepth 8000 in
/-- C3 counterexample: a syntactically perfect candidate that references
the table `secrets` — a table other than the single allowed
`public.rawg_games` — through a `JOIN` clause is **accepted** by every
check of `validate` (the table check on line 177 only requires the
allowed table to appear after some `FROM`/`JOIN`; it does not forbid
additional tables).  This refutes the claim that every candidate
referencing another table is rejected with `WrongTable`. -/
theorem sanitize_extra_table_accepted :
    sanitize_checks "SELECT a FROM public.rawg_games JOIN secrets ON b = c" =
      .ok "SELECT a FROM public.rawg_games JOIN secrets ON b = c" := by
  decide

/-- C3 amended: provided no earlier short-circuiting check fires, `validate`
rejects with `WrongTable` **iff** no `FROM` or `JOIN` clause references
the allowed table `public.rawg_games` by its fully qualified name; a
candidate that references additional tables alongside the allowed one is
not rejected. -/
theorem sanitize_wrong_table_iff (sql : String)
    (h1 : (sqlTrim sql).any (· == ';') = false)
    (h2 : (containsSub "--".data (sqlTrim sql) ||
        containsSub "/*".data (sqlTrim sql) ||
        containsSub "*/".data (sqlTrim sql)) = false)
    (h3 : findWordAux forbiddenKws none (sqlTrim sql) = false)
    (h4 : findWordAux catalogKws none (sqlTrim sql) = false)
    (h5 : startsSelectWith (sqlTrim sql) = true) :
    sanitize_checks sql = .error .WrongTable ↔
      hasTableRefAux none (sqlTrim sql) = false := by
  by_cases h6 : hasTableRefAux none (sqlTrim sql)
  · simp only [sanitize_checks, h1, h2, h3, h4, h5, h6]
    simp
  · rw [Bool.not_eq_true] at h6
    simp only [sanitize_checks, h1, h2, h3, h4, h5, h6]
    simp

/-- Witness for C3 (amended): a clean `SELECT` over an unknown table is
rejected with `WrongTable`. -/
theorem sanitize_wrong_table_iff_witness :
    sanitize_checks "SELECT x FROM nope" = .error .WrongTable :=
  (sanitize_wrong_table_iff "SELECT x FROM nope"
    (by decide) (by decide) (by decide) (by decide) (by decide)).mpr (by decide)

/-! ## SqlExtractor: `extract_first_select` (app.py lines 144-156)

The fence pattern is
`re.search(r"```(?:sql)?\s*(.*?)\s*```", t, re.I | re.S)`:
leftmost match; at a match position, the opening marker is three
backticks, the optional annotation `sql` is tried greedily, the first
`\s*` is greedy, the group `(.*?)` is lazy, the second `\s*` is greedy
and must be followed by three closing backticks.  Because whitespace and
backticks are disjoint character classes neither `\s*` ever backtracks,
so the group is the shortest text whose remainder is whitespace followed
by three backticks.  Since the group is immediately `.strip()`-ed by the
source (line 150), the embedding lets the group absorb the first `\s*`'s
whitespace: `pyStrip` of the two is identical. -/

/-- Three literal backticks at the head; returns the remainder. -/
def tripleTick : List Char → Option (List Char)
  | a :: b :: c :: r =>
    if a == '`' && b == '`' && c == '`' then some r else none
  | _ => none

/-- Does `u` begin with `\s*` followed by three backticks?  (Whitespace
and backticks are disjoint, so the greedy `\s*` is `dropWhile`.) -/
def fenceClose (u : List Char) : Bool :=
  (tripleTick (u.dropWhile isPySpace)).isSome

/-- The lazy group `(.*?)` before `\s*` + three closing backticks: the
shortest prefix whose remainder satisfies `fenceClose`; `none` when no
closing marker exists. -/
def fenceGroup : List Char → Option (List Char)
  | [] => none
  | c :: cs =>
    if fenceClose (c :: cs) then some []
    else (fenceGroup cs).map (c :: ·)

/-- The full fence pattern anchored at the head of `s`: opening marker,
then the greedy optional `sql` annotation (backtracked if the rest of the
pattern cannot close), then the group. -/
def fenceAt (s : List Char) : Option (List Char) :=
  match tripleTick s with
  | none => none
  | some r =>
    match (if startsWithCI "sql".data r then fenceGroup (r.drop 3) else none) with
    | some g => some g
    | none => fenceGroup r

/-- `re.search` of the fence pattern: leftmost match wins. -/
def fenceSearch : List Char → Option (List Char)
  | [] => none
  | c :: cs =>
    match fenceAt (c :: cs) with
    | some g => some g
    | none => fenceSearch cs

/-- `\b(SELECT|WITH)\b` matched at the head of `s`. -/
def selWithAt (s : List Char) : Bool :=
  (startsWithCI "select".data s && boundaryAfter 6 s) ||
    (startsWithCI "with".data s && boundaryAfter 4 s)

/-- `re.search(r"(?is)\b(SELECT|WITH)\b.*", t)`: find the first
`SELECT`/`WITH` token and return everything from there to the end of the
text (`.*` with `re.S` reaches the end). -/
def findSelWithAux : Option Char → List Char → Option (List Char)
  | _, [] => none
  | prev, c :: cs =>
    if prevBoundary prev && selWithAt (c :: cs) then some (c :: cs)
    else findSelWithAux (some c) cs

/-- `extract_first_select` (app.py lines 144-156): strip, take the fenced
block's interior when a fence matches, locate the first `SELECT`/`WITH`
token, and return the tail stripped of whitespace and of every trailing
terminator (`.strip().rstrip(";")`, line 156).  `none` models the
`ValueError("No SQL returned")` path. -/
def extract_first_select (txt : String) : Option String :=
  let t := pyStrip txt.data
  let t2 := match fenceSearch t with
    | some g => pyStrip g
    | none => t
  match findSelWithAux none t2 with
  | some cand => some (String.mk (rstripSemis (pyStrip cand)))
  | none => none

/-! ## C8: trailing-terminator stripping in extraction -/

set_option maxRecDepth 2000 in
/-- C8 counterexample: a candidate ending in two statement-terminators
loses **both** of them — `rstrip(";")` on line 156 strips every trailing
terminator, not exactly one — so the claim that all but one terminator
are retained is false at `"SELECT 1;;"`. -/
theorem extract_two_semis_strips_both :
    extract_first_select "SELECT 1;;" = some "SELECT 1" ∧
      extract_first_select "SELECT 1;;" ≠ some "SELECT 1;" := by
  constructor
  · decide
  · decide

theorem rstripSemis_getLast (x : List Char) :
    (rstripSemis x).getLast? ≠ some ';' := by
  induction x with
  | nil => simp [rstripSemis]
  | cons c cs ih =>
    simp only [rstripSemis]
    by_cases hr : (rstripSemis cs).isEmpty
    · simp only [hr, if_true]
      by_cases hc : c == ';'
      · simp [hc]
      · simp only [hc, if_false]
        simp
        simpa using hc
    · cases he : rstripSemis cs with
      | nil => rw [he] at hr; simp at hr
      | cons d ds =>
        rw [he] at ih
        simp only [List.isEmpty_cons, Bool.false_eq_true, if_false]
        rw [List.getLast?_cons_cons]
        exact ih

/-- C8 amended: when extraction succeeds, the candidate returned by
`extract_first_select` never ends with a statement-terminator: the source
strips **all** trailing terminators (after stripping surrounding
whitespace), so a candidate ending in several terminators retains none of
them. -/
theorem extract_no_trailing_semi (txt r : String)
    (h : extract_first_select txt = some r) :
    r.data.getLast? ≠ some ';' := by
  simp only [extract_first_select] at h
  split at h
  · rename_i cand heq
    have : String.mk (rstripSemis (pyStrip cand)) = r := Option.some_inj.mp h
    rw [← this]
    exact rstripSemis_getLast (pyStrip cand)
  · exact absurd h (by simp)

set_option maxRecDepth 2000 in
/-- Witness for C8 (amended) at the concrete completion `"SELECT 1;;"`. -/
theorem extract_no_trailing_semi_witness :
    ("SELECT 1" : String).data.getLast? ≠ some ';' :=
  extract_no_trailing_semi "SELECT 1;;" "SELECT 1" (by decide)

/-! ## Helper lemmas on `rstripWS` / `pyStrip` for the fence proofs (C7) -/

theorem rstripWS_cons (c : Char) (cs : List Char) :
    rstripWS (c :: cs) =
      if rstripWS cs = [] then (if isPySpace c then [] else [c])
      else c :: rstripWS cs := by
  simp only [rstripWS]
  by_cases h : rstripWS cs = []
  · simp [h]
  · rw [if_neg h]
    have he : (rstripWS cs).isEmpty = false := by
      cases heq : rstripWS cs with
      | nil => exact absurd heq h
      | cons d ds => simp
    simp [he]

theorem rstripWS_eq_nil_iff (a : List Char) :
    rstripWS a = [] ↔ ∀ c ∈ a, isPySpace c = true := by
  induction a with
  | nil => simp [rstripWS]
  | cons c cs ih =>
    rw [rstripWS_cons]
    by_cases h : rstripWS cs = []
    · rw [if_pos h]
      by_cases hc : isPySpace c
      · simp only [hc, if_true, true_iff]
        intro d hd
        rcases List.mem_cons.mp hd with h1 | h2
        · rw [h1]; exact hc
        · exact (ih.mp h) d h2
      · simp only [hc, if_false]
        constructor
        · intro hcon; cases hcon
        · intro hall
          exact absurd (hall c (by simp)) (by simpa using hc)
    · rw [if_neg h]
      constructor
      · intro hcon; cases hcon
      · intro hall
        exact absurd (ih.mpr (fun x hx => hall x (by simp [hx]))) h

theorem rstripWS_append_singleton (a : List Char) (x : Char) :
    rstripWS (a ++ [x]) =
      if isPySpace x then rstripWS a else a ++ [x] := by
  induction a with
  | nil =>
    by_cases hx : isPySpace x
    · simp [rstripWS_cons, rstripWS, hx]
    · simp [rstripWS_cons, rstripWS, hx]
  | cons c cs ih =>
    rw [List.cons_append, rstripWS_cons, ih, rstripWS_cons]
    by_cases hx : isPySpace x
    · simp [hx]
    · rw [if_neg hx, if_neg hx]
      have hne : cs ++ [x] ≠ [] := by simp
      rw [if_neg hne]

theorem rstripWS_append_spaces (a b : List Char)
    (hb : ∀ c ∈ b, isPySpace c = true) :
    rstripWS (a ++ b) = rstripWS a := by
  induction b using List.reverseRecOn generalizing a with
  | nil => simp
  | append_singleton bs x ih =>
    rw [← List.append_assoc, rstripWS_append_singleton,
      if_pos (hb x (by simp))]
    exact ih a (fun c hc => hb c (by simp [hc]))

theorem mem_rstripWS {x : Char} {l : List Char} (h : x ∈ rstripWS l) :
    x ∈ l := by
  induction l with
  | nil => simp [rstripWS] at h
  | cons c cs ih =>
    rw [rstripWS_cons] at h
    by_cases hr : rstripWS cs = []
    · rw [if_pos hr] at h
      by_cases hc : isPySpace c
      · rw [if_pos hc] at h; cases h
      · rw [if_neg hc] at h
        simp only [List.mem_singleton] at h
        simp [h]
    · rw [if_neg hr] at h
      rcases List.mem_cons.mp h with h1 | h2
      · simp [h1]
      · exact List.mem_cons_of_mem c (ih h2)

theorem mem_pyStrip {x : Char} {l : List Char} (h : x ∈ pyStrip l) :
    x ∈ l :=
  ((List.dropWhile_sublist isPySpace :
    (List.dropWhile isPySpace l).Sublist l).mem (mem_rstripWS h))

theorem rstripWS_idem (l : List Char) : rstripWS (rstripWS l) = rstripWS l := by
  induction l with
  | nil => simp [rstripWS]
  | cons c cs ih =>
    rw [rstripWS_cons]
    by_cases hr : rstripWS cs = []
    · rw [if_pos hr]
      by_cases hc : isPySpace c
      · simp [hc, rstripWS]
      · simp [hc, rstripWS_cons, rstripWS]
    · rw [if_neg hr, rstripWS_cons, ih, if_neg hr]

theorem dropWhile_rstripWS_comm (y : List Char) :
    List.dropWhile isPySpace (rstripWS y) =
      rstripWS (y.dropWhile isPySpace) := by
  induction y with
  | nil => simp [rstripWS]
  | cons c cs ih =>
    rw [List.dropWhile_cons, rstripWS_cons]
    by_cases hc : isPySpace c <;> by_cases hr : rstripWS cs = [] <;>
      simp [hc, hr, List.dropWhile_cons, rstripWS_cons, ← ih]

theorem pyStrip_rstripWS (y : List Char) : pyStrip (rstripWS y) = pyStrip y := by
  unfold pyStrip
  rw [dropWhile_rstripWS_comm, rstripWS_idem]

theorem pyStrip_cons_space {c : Char} (hc : isPySpace c) (x : List Char) :
    pyStrip (c :: x) = pyStrip x := by
  unfold pyStrip
  rw [List.dropWhile_cons, if_pos hc]

theorem pyStrip_append_newline (x : List Char) :
    pyStrip (x ++ ['\n']) = pyStrip x := by
  unfold pyStrip
  rw [List.dropWhile_append]
  by_cases h : (List.dropWhile isPySpace x).isEmpty
  · rw [if_pos h]
    have hx : List.dropWhile isPySpace x = [] := by
      cases he : List.dropWhile isPySpace x with
      | nil => rfl
      | cons d ds => rw [he] at h; simp at h
    rw [hx]
    simp [List.dropWhile, rstripWS, rstripWS_cons]
  · rw [if_neg h]
    rw [rstripWS_append_singleton,
      if_pos (show isPySpace '\n' = true by decide)]

/-! ## Fence lemmas (C7) -/

theorem tripleTick_cons_ne {c : Char} (h : c ≠ '`') (cs : List Char) :
    tripleTick (c :: cs) = none := by
  cases cs with
  | nil => rfl
  | cons b bs =>
    cases bs with
    | nil => rfl
    | cons d ds =>
      simp only [tripleTick]
      rw [if_neg]
      simp only [Bool.and_eq_true, beq_iff_eq]
      intro hcon
      exact h hcon.1.1

theorem fenceClose_append_ticks (u : List Char) (hu : ∀ c ∈ u, c ≠ '`') :
    fenceClose (u ++ ['`', '`', '`']) =
      decide (∀ c ∈ u, isPySpace c = true) := by
  induction u with
  | nil => rfl
  | cons c cs ih =>
    simp only [List.cons_append, fenceClose, List.dropWhile_cons]
    by_cases hc : isPySpace c
    · rw [if_pos hc]
      have hih := ih (fun d hd => hu d (by simp [hd]))
      simp only [fenceClose] at hih
      rw [hih]
      by_cases hall : ∀ d ∈ cs, isPySpace d = true
      · have h2 : ∀ d ∈ c :: cs, isPySpace d = true := by
          intro d hd
          rcases List.mem_cons.mp hd with h1 | h1
          · rw [h1]; exact hc
          · exact hall d h1
        rw [decide_eq_true hall, decide_eq_true h2]
      · have h2 : ¬ ∀ d ∈ c :: cs, isPySpace d = true := by
          intro hcon
          exact hall (fun d hd => hcon d (by simp [hd]))
        rw [decide_eq_false hall, decide_eq_false h2]
    · rw [if_neg hc]
      rw [tripleTick_cons_ne (hu c (by simp))]
      have h2 : ¬ ∀ d ∈ c :: cs, isPySpace d = true := by
        intro hcon
        exact hc (hcon c (by simp))
      rw [decide_eq_false h2]
      rfl

theorem fenceGroup_append_ticks (u : List Char) (hu : ∀ c ∈ u, c ≠ '`') :
    fenceGroup (u ++ ['`', '`', '`']) = some (rstripWS u) := by
  induction u with
  | nil => rfl
  | cons c cs ih =>
    rw [List.cons_append]
    simp only [fenceGroup]
    rw [show (c :: (cs ++ ['`', '`', '`'])) =
      ((c :: cs) ++ ['`', '`', '`']) by simp]
    rw [fenceClose_append_ticks (c :: cs) hu]
    by_cases hall : ∀ d ∈ c :: cs, isPySpace d = true
    · rw [decide_eq_true hall]
      simp only [if_true]
      rw [(rstripWS_eq_nil_iff (c :: cs)).mpr hall]
    · rw [decide_eq_false hall]
      simp only [Bool.false_eq_true, if_false]
      rw [ih (fun d hd => hu d (by simp [hd]))]
      show some (c :: rstripWS cs) = some (rstripWS (c :: cs))
      rw [rstripWS_cons]
      by_cases hr : rstripWS cs = []
      · rw [if_pos hr]
        have hcs : ∀ d ∈ cs, isPySpace d = true := (rstripWS_eq_nil_iff cs).mp hr
        have hcns : ¬ isPySpace c = true := by
          intro hcon
          exact hall (fun d hd => by
            rcases List.mem_cons.mp hd with h1 | h2
            · rw [h1]; exact hcon
            · exact hcs d h2)
        rw [if_neg hcns, hr]
      · rw [if_neg hr]

theorem fenceSearch_no_tick (t : List Char) (h : ∀ c ∈ t, c ≠ '`') :
    fenceSearch t = none := by
  induction t with
  | nil => rfl
  | cons c cs ih =>
    simp only [fenceSearch, fenceAt]
    rw [tripleTick_cons_ne (h c (by simp))]
    exact ih (fun d hd => h d (by simp [hd]))

/-! ## C7: fenced completions are extracted like unwrapped ones -/

/-- The interior of the fenced block as produced by a typical completion:
the statement on its own line. -/
def fenceInner (s : String) : List Char :=
  '\n' :: (s.data ++ ['\n'])

/-- `s` wrapped in a triple-backtick fenced block annotated with the
dialect name: ```` ```sql\n<s>\n``` ````. -/
def wrapFenceSql (s : String) : String :=
  String.mk ('`' :: '`' :: '`' :: 's' :: 'q' :: 'l' ::
    (fenceInner s ++ ['`', '`', '`']))

/-- `s` wrapped in an unannotated triple-backtick fenced block:
```` ```\n<s>\n``` ````. -/
def wrapFence (s : String) : String :=
  String.mk ('`' :: '`' :: '`' :: (fenceInner s ++ ['`', '`', '`']))

theorem rstripWS_of_getLast_tick (l : List Char)
    (h : l.getLast? = some '`') : rstripWS l = l := by
  induction l with
  | nil => simp at h
  | cons c cs ih =>
    cases cs with
    | nil =>
      simp only [List.getLast?_singleton, Option.some_inj] at h
      rw [rstripWS_cons]
      simp only [rstripWS, if_pos rfl]
      rw [h]
      rfl
    | cons d ds =>
      rw [List.getLast?_cons_cons] at h
      have hih := ih h
      rw [rstripWS_cons, hih, if_neg (by simp)]

theorem getLast?_append_ticks (x : List Char) :
    (x ++ ['`', '`', '`']).getLast? = some '`' := by
  rw [List.getLast?_append]
  rfl

theorem pyStrip_wrapSql (s : String) :
    pyStrip (wrapFenceSql s).data = (wrapFenceSql s).data := by
  show pyStrip ('`' :: '`' :: '`' :: 's' :: 'q' :: 'l' ::
    (fenceInner s ++ ['`', '`', '`'])) = _
  unfold pyStrip
  rw [List.dropWhile_cons, if_neg (by decide)]
  apply rstripWS_of_getLast_tick
  simp only [List.getLast?_cons_cons]
  rw [show ('l' :: (fenceInner s ++ ['`', '`', '`'])) =
    (('l' :: fenceInner s) ++ ['`', '`', '`']) by simp]
  exact getLast?_append_ticks _

theorem pyStrip_wrapNoSql (s : String) :
    pyStrip (wrapFence s).data = (wrapFence s).data := by
  show pyStrip ('`' :: '`' :: '`' ::
    (fenceInner s ++ ['`', '`', '`'])) = _
  unfold pyStrip
  rw [List.dropWhile_cons, if_neg (by decide)]
  apply rstripWS_of_getLast_tick
  simp only [List.getLast?_cons_cons]
  rw [show ('`' :: (fenceInner s ++ ['`', '`', '`'])) =
    (('`' :: fenceInner s) ++ ['`', '`', '`']) by simp]
  exact getLast?_append_ticks _

theorem fenceInner_no_tick (s : String) (h : ∀ c ∈ s.data, c ≠ '`') :
    ∀ c ∈ fenceInner s, c ≠ '`' := by
  intro c hc
  simp only [fenceInner, List.mem_cons, List.mem_append,
    List.mem_singleton] at hc
  rcases hc with h1 | h1 | h1
  · rw [h1]; decide
  · exact h c h1
  · rcases h1 with h2 | h2
    · rw [h2]; decide
    · cases h2

theorem fenceAt_wrapSql (s : String) (h : ∀ c ∈ s.data, c ≠ '`') :
    fenceAt ('`' :: '`' :: '`' :: 's' :: 'q' :: 'l' ::
      (fenceInner s ++ ['`', '`', '`'])) = some (rstripWS (fenceInner s)) := by
  show (match fenceGroup (fenceInner s ++ ['`', '`', '`']) with
    | some g => some g
    | none =>
      fenceGroup ('s' :: 'q' :: 'l' :: (fenceInner s ++ ['`', '`', '`']))) = _
  rw [fenceGroup_append_ticks _ (fenceInner_no_tick s h)]

theorem fenceSearch_wrapSql (s : String) (h : ∀ c ∈ s.data, c ≠ '`') :
    fenceSearch (wrapFenceSql s).data = some (rstripWS (fenceInner s)) := by
  show fenceSearch ('`' :: '`' :: '`' :: 's' :: 'q' :: 'l' ::
    (fenceInner s ++ ['`', '`', '`'])) = _
  unfold fenceSearch
  rw [fenceAt_wrapSql s h]

theorem fenceAt_wrapNoSql (s : String) (h : ∀ c ∈ s.data, c ≠ '`') :
    fenceAt ('`' :: '`' :: '`' :: (fenceInner s ++ ['`', '`', '`'])) =
      some (rstripWS (fenceInner s)) := by
  show (match (none : Option (List Char)) with
    | some g => some g
    | none => fenceGroup (fenceInner s ++ ['`', '`', '`'])) = _
  rw [show (match (none : Option (List Char)) with
    | some g => some g
    | none => fenceGroup (fenceInner s ++ ['`', '`', '`'])) =
      fenceGroup (fenceInner s ++ ['`', '`', '`']) from rfl]
  exact fenceGroup_append_ticks _ (fenceInner_no_tick s h)

theorem fenceSearch_wrapNoSql (s : String) (h : ∀ c ∈ s.data, c ≠ '`') :
    fenceSearch (wrapFence s).data = some (rstripWS (fenceInner s)) := by
  show fenceSearch ('`' :: '`' :: '`' ::
    (fenceInner s ++ ['`', '`', '`'])) = _
  unfold fenceSearch
  rw [fenceAt_wrapNoSql s h]

theorem pyStrip_fenceInner (s : String) :
    pyStrip (rstripWS (fenceInner s)) = pyStrip s.data := by
  rw [pyStrip_rstripWS]
  show pyStrip ('\n' :: (s.data ++ ['\n'])) = _
  rw [pyStrip_cons_space (by decide), pyStrip_append_newline]

/-- C7 amended: for every statement `s` containing no backtick character,
wrapping `s` in a triple-backtick fenced block — annotated with the
dialect name or not — yields exactly the same extracted candidate as the
unwrapped `s`. -/
theorem extract_fenced_eq (s : String) (h : ∀ c ∈ s.data, c ≠ '`') :
    extract_first_select (wrapFenceSql s) = extract_first_select s ∧
      extract_first_select (wrapFence s) = extract_first_select s := by
  have hun : fenceSearch (pyStrip s.data) = none :=
    fenceSearch_no_tick _ (fun c hc => h c (mem_pyStrip hc))
  constructor
  · simp only [extract_first_select]
    rw [pyStrip_wrapSql s, fenceSearch_wrapSql s h, hun]
    show (match findSelWithAux none (pyStrip (rstripWS (fenceInner s))) with
      | some cand => some (String.mk (rstripSemis (pyStrip cand)))
      | none => none) =
      (match findSelWithAux none (pyStrip s.data) with
      | some cand => some (String.mk (rstripSemis (pyStrip cand)))
      | none => none)
    rw [pyStrip_fenceInner]
  · simp only [extract_first_select]
    rw [pyStrip_wrapNoSql s, fenceSearch_wrapNoSql s h, hun]
    show (match findSelWithAux none (pyStrip (rstripWS (fenceInner s))) with
      | some cand => some (String.mk (rstripSemis (pyStrip cand)))
      | none => none) =
      (match findSelWithAux none (pyStrip s.data) with
      | some cand => some (String.mk (rstripSemis (pyStrip cand)))
      | none => none)
    rw [pyStrip_fenceInner]

set_option maxRecDepth 8000 in
/-- C7 counterexample: for the syntactically valid statement
`SELECT '```'` — whose string literal contains a triple-backtick marker —
the fenced and unwrapped extractions differ: the lazy fence group stops
at the backticks inside the literal, so the wrapped completion yields the
truncated candidate `SELECT '`.  This refutes the claim for arbitrary
statements. -/
theorem extract_fence_backtick_differs :
    extract_first_select (wrapFenceSql "SELECT '```'") = some "SELECT '" ∧
      extract_first_select "SELECT '```'" = some "SELECT '```'" ∧
      extract_first_select (wrapFenceSql "SELECT '```'") ≠
        extract_first_select "SELECT '```'" := by
  refine ⟨by decide, by decide, by decide⟩

/-- Witness for C7 (amended) at a backtick-free statement. -/
theorem extract_fenced_eq_witness :
    extract_first_select (wrapFenceSql "SELECT 1") =
      extract_first_select "SELECT 1" :=
  (extract_fenced_eq "SELECT 1" (by decide)).1

/-! ## LimitEnforcer: `ensure_limit` (app.py lines 184-191)

`re.search(r"(?is)\bLIMIT\s+(\d+)\b", sql)` finds the first limit clause;
if its value exceeds the ceiling, `re.sub` rewrites **every**
non-overlapping occurrence of the pattern to `LIMIT {limit}`; otherwise
the statement is returned unchanged; when no occurrence exists,
`f"{sql}\nLIMIT {limit}"` appends one.

In the pattern, `\s+` and `\d+` never benefit from backtracking (a `\b`
between two digits can never hold, and whitespace/digit classes are
disjoint from what follows), so maximal munch is exact.  The scanners
below carry the previous character for the leading `\b`; after a match,
`re` continues scanning right after the matched span, so the previous
character is then the last digit of the match.  The replacement scanner
is fuelled by the input length to stay structurally recursive and
kernel-executable; every theorem goes through length-irrelevance of the
fuel. -/

/-- The decimal digit character for `d < 10`. -/
def digitChar (d : Nat) : Char := Char.ofNat (48 + d)

/-- Fuelled decimal formatting accumulator. -/
def natDigitsAux : Nat → Nat → List Char → List Char
  | 0, _, acc => acc
  | f + 1, n, acc =>
    if n < 10 then digitChar n :: acc
    else natDigitsAux f (n / 10) (digitChar (n % 10) :: acc)

/-- Decimal digits of `n` (the text Python's `f"{limit}"` produces for a
non-negative int). -/
def natDigits (n : Nat) : List Char := natDigitsAux (n + 1) n []

/-- Numeric value of a digit character. -/
def digitVal (c : Char) : Nat := c.toNat - 48

/-- `int(...)` on a string of decimal digits. -/
def digitsVal (ds : List Char) : Nat :=
  ds.foldl (fun a c => 10 * a + digitVal c) 0

/-- The pattern `LIMIT\s+(\d+)\b` matched at the head of `s` (the leading
`\b` is handled by the scanners).  Returns the digit group and the
remainder of the text after it. -/
def limitMatch (s : List Char) : Option (List Char × List Char) :=
  if startsWithCI "limit".data s then
    let t := s.drop 5
    let sp := t.takeWhile isPySpace
    if sp.isEmpty then none
    else
      let u := t.dropWhile isPySpace
      let ds := u.takeWhile Char.isDigit
      if ds.isEmpty then none
      else
        let r := u.dropWhile Char.isDigit
        match r with
        | [] => some (ds, [])
        | c :: _ => if isWordChar c then none else some (ds, r)
  else none

/-- `re.search(r"(?is)\bLIMIT\s+(\d+)\b", ...)`: value of the first
match. -/
def findLimitAux : Option Char → List Char → Option Nat
  | _, [] => none
  | prev, c :: cs =>
    if prevBoundary prev then
      match limitMatch (c :: cs) with
      | some (ds, _) => some (digitsVal ds)
      | none => findLimitAux (some c) cs
    else findLimitAux (some c) cs

/-- Values of every non-overlapping match, in order (the matches that
`re.sub` rewrites).  Fuelled; after a match the scan resumes after the
digit group, with the last digit as the previous character. -/
def findAllAux : Nat → Option Char → List Char → List Nat
  | 0, _, _ => []
  | _, _, [] => []
  | f + 1, prev, c :: cs =>
    if prevBoundary prev then
      match limitMatch (c :: cs) with
      | some (ds, rest) =>
        digitsVal ds :: findAllAux f (some (ds.getLastD '0')) rest
      | none => findAllAux f (some c) cs
    else findAllAux f (some c) cs

/-- The replacement text `LIMIT {limit}` of the `re.sub` call. -/
def limitRepl (limit : Nat) : List Char :=
  'L' :: 'I' :: 'M' :: 'I' :: 'T' :: ' ' :: natDigits limit

/-- `re.sub(r"(?is)\bLIMIT\s+\d+\b", f"LIMIT {limit}", sql)`: rewrite
every non-overlapping match.  Fuelled like `findAllAux`. -/
def subLimitAux (limit : Nat) : Nat → Option Char → List Char → List Char
  | 0, _, s => s
  | _, _, [] => []
  | f + 1, prev, c :: cs =>
    if prevBoundary prev then
      match limitMatch (c :: cs) with
      | some (ds, rest) =>
        limitRepl limit ++ subLimitAux limit f (some (ds.getLastD '0')) rest
      | none => c :: subLimitAux limit f (some c) cs
    else c :: subLimitAux limit f (some c) cs

/-- First-match value over a whole text. -/
def findLimitW (s : List Char) : Option Nat := findLimitAux none s

/-- All match values over a whole text. -/
def limitValues (s : List Char) : List Nat := findAllAux s.length none s

/-- Full-text substitution. -/
def subAllLimit (limit : Nat) (s : List Char) : List Char :=
  subLimitAux limit s.length none s

/-- `ensure_limit` (app.py lines 184-191). -/
def ensure_limit (sql : String) (limit : Nat) : String :=
  match findLimitAux none sql.data with
  | some n =>
    if limit < n then String.mk (subAllLimit limit sql.data) else sql
  | none => String.mk (sql.data ++ ('\n' :: limitRepl limit))

/-! ## Character arithmetic helpers for the limit lemmas -/

theorem char_toNat_inj {a b : Char} (h : a.toNat = b.toNat) : a = b :=
  Char.ext (UInt32.toNat.inj h)

theorem char_toNat_ofNat {m : Nat} (h : m < 55296) :
    (Char.ofNat m).toNat = m := by
  unfold Char.ofNat
  rw [dif_pos (Or.inl h : m.isValidChar)]
  simp [Char.ofNatAux, Char.toNat, UInt32.toNat]

/-- A character whose ASCII lowering is `'l'` is `'l'` or `'L'`. -/
theorem lowerChar_eq_l {c : Char} (h : lowerChar c = 'l') :
    c = 'l' ∨ c = 'L' := by
  unfold lowerChar at h
  by_cases hr : 65 ≤ c.toNat ∧ c.toNat ≤ 90
  · rw [if_pos hr] at h
    right
    have hn : (Char.ofNat (c.toNat + 32)).toNat = c.toNat + 32 :=
      char_toNat_ofNat (by omega)
    have h108 : c.toNat + 32 = 108 := by rw [← hn, h]; rfl
    have h76 : c.toNat = 76 := by omega
    exact char_toNat_inj (by rw [h76]; rfl)
  · rw [if_neg hr] at h
    exact Or.inl h

theorem head_l_classes {c : Char} (h : lowerChar c = 'l') :
    isPySpace c = false ∧ Char.isDigit c = false ∧ isWordChar c = true := by
  rcases lowerChar_eq_l h with h1 | h1 <;> rw [h1] <;> exact ⟨rfl, rfl, rfl⟩

theorem isDigit_not_space {c : Char} (h : c.isDigit = true) :
    isPySpace c = false := by
  simp only [Char.isDigit, Bool.and_eq_true, decide_eq_true_eq] at h
  simp only [isPySpace, Bool.or_eq_false_iff, beq_eq_false_iff_ne]
  refine ⟨⟨⟨⟨⟨?_, ?_⟩, ?_⟩, ?_⟩, ?_⟩, ?_⟩ <;>
    (intro hcon; rw [hcon] at h; revert h; decide)

theorem isDigit_wordChar {c : Char} (h : c.isDigit = true) :
    isWordChar c = true := by
  simp [isWordChar, Char.isAlphanum, h]

/-! ## Decimal formatting lemmas -/

theorem digitChar_toNat {d : Nat} (h : d < 10) :
    (digitChar d).toNat = 48 + d := by
  unfold digitChar
  exact char_toNat_ofNat (by omega)

theorem digitChar_isDigit {d : Nat} (h : d < 10) :
    (digitChar d).isDigit = true := by
  interval_cases d <;> decide

theorem digitVal_digitChar {d : Nat} (h : d < 10) :
    digitVal (digitChar d) = d := by
  unfold digitVal
  rw [digitChar_toNat h]
  omega

theorem natDigitsAux_acc (f : Nat) :
    ∀ (n : Nat) (acc : List Char),
      natDigitsAux f n acc = natDigitsAux f n [] ++ acc := by
  induction f with
  | zero => intro n acc; rfl
  | succ f ih =>
    intro n acc
    simp only [natDigitsAux]
    by_cases h : n < 10
    · rw [if_pos h, if_pos h]
      rfl
    · rw [if_neg h, if_neg h]
      rw [ih (n / 10) (digitChar (n % 10) :: acc),
        ih (n / 10) [digitChar (n % 10)]]
      simp

theorem digitsVal_append_singleton (a : List Char) (c : Char) :
    digitsVal (a ++ [c]) = 10 * digitsVal a + digitVal c := by
  unfold digitsVal
  rw [List.foldl_append]
  rfl

theorem natDigitsAux_spec :
    ∀ (f n : Nat), n < f →
      natDigitsAux f n [] ≠ [] ∧
      (∀ c ∈ natDigitsAux f n [], c.isDigit = true) ∧
      digitsVal (natDigitsAux f n []) = n := by
  intro f
  induction f with
  | zero => intro n h; omega
  | succ f ih =>
    intro n hn
    simp only [natDigitsAux]
    by_cases h : n < 10
    · rw [if_pos h]
      refine ⟨by simp, ?_, ?_⟩
      · intro c hc
        simp only [List.mem_singleton] at hc
        rw [hc]
        exact digitChar_isDigit h
      · show digitsVal ([] ++ [digitChar n]) = n
        rw [digitsVal_append_singleton]
        simp [digitsVal, digitVal_digitChar h]
    · rw [if_neg h]
      have hdiv : n / 10 < f := by
        have h1 : n / 10 < n := Nat.div_lt_self (by omega) (by omega)
        omega
      obtain ⟨ih1, ih2, ih3⟩ := ih (n / 10) hdiv
      rw [natDigitsAux_acc]
      refine ⟨by simp, ?_, ?_⟩
      · intro c hc
        rcases List.mem_append.mp hc with h1 | h1
        · exact ih2 c h1
        · simp only [List.mem_singleton] at h1
          rw [h1]
          exact digitChar_isDigit (by omega)
      · rw [digitsVal_append_singleton, ih3,
          digitVal_digitChar (by omega)]
        omega

theorem natDigits_ne_nil (n : Nat) : natDigits n ≠ [] :=
  (natDigitsAux_spec (n + 1) n (by omega)).1

theorem natDigits_all_digits (n : Nat) :
    ∀ c ∈ natDigits n, c.isDigit = true :=
  (natDigitsAux_spec (n + 1) n (by omega)).2.1

theorem digitsVal_natDigits (n : Nat) : digitsVal (natDigits n) = n :=
  (natDigitsAux_spec (n + 1) n (by omega)).2.2

theorem getLastD_mem {α : Type} :
    ∀ (l : List α) (d : α), l ≠ [] → l.getLastD d ∈ l := by
  intro l
  induction l with
  | nil => intro d h; exact absurd rfl h
  | cons c cs ih =>
    intro d _
    rw [List.getLastD_cons]
    cases hcs : cs with
    | nil => simp [List.getLastD]
    | cons e es =>
      rw [← hcs]
      exact List.mem_cons_of_mem _ (ih c (by simp [hcs]))

theorem natDigits_getLastD_isDigit (n : Nat) :
    ((natDigits n).getLastD '0').isDigit = true :=
  natDigits_all_digits n _ (getLastD_mem _ _ (natDigits_ne_nil n))

/-! ## `startsWithCI` characterization and `limitMatch` structure -/

theorem startsWithCI_iff (pat : List Char) :
    ∀ s : List Char, startsWithCI pat s = true ↔
      ∃ s1 s2, s = s1 ++ s2 ∧ s1.length = pat.length ∧
        s1.map lowerChar = pat := by
  induction pat with
  | nil =>
    intro s
    simp only [startsWithCI, true_iff]
    exact ⟨[], s, by simp⟩
  | cons p ps ih =>
    intro s
    cases s with
    | nil =>
      simp only [startsWithCI]
      constructor
      · intro h; cases h
      · intro ⟨s1, s2, h1, h2, h3⟩
        have : s1 = [] := by
          cases s1 with
          | nil => rfl
          | cons a as => simp at h1
        rw [this] at h2
        simp at h2
    | cons c cs =>
      simp only [startsWithCI, Bool.and_eq_true, beq_iff_eq]
      constructor
      · intro ⟨h1, h2⟩
        obtain ⟨s1, s2, e1, e2, e3⟩ := (ih cs).mp h2
        exact ⟨c :: s1, s2, by simp [e1], by simp [e2],
          by simp [e3, ← h1]⟩
      · intro ⟨s1, s2, e1, e2, e3⟩
        cases s1 with
        | nil => simp at e2
        | cons a as =>
          simp only [List.cons_append, List.cons.injEq] at e1
          simp only [List.map_cons, List.cons.injEq] at e3
          simp only [List.length_cons, Nat.add_right_cancel_iff] at e2
          refine ⟨by rw [← e3.1, e1.1], ?_⟩
          exact (ih cs).mpr ⟨as, s2, e1.2, e2, e3.2⟩

theorem startsWithCI_append_left (pat : List Char) :
    ∀ (a b : List Char), pat.length ≤ a.length →
      startsWithCI pat (a ++ b) = startsWithCI pat a := by
  induction pat with
  | nil => intro a b _; rfl
  | cons p ps ih =>
    intro a b h
    cases a with
    | nil => simp at h
    | cons c cs =>
      simp only [List.cons_append, startsWithCI]
      have hih := ih cs b (by simpa using h)
      rw [show cs.append b = cs ++ b from rfl, hih]

/-- Structure of a successful `limitMatch`. -/
theorem limitMatch_spec {s ds rest : List Char}
    (h : limitMatch s = some (ds, rest)) :
    ∃ p5 sp, s = p5 ++ (sp ++ (ds ++ rest)) ∧
      p5.map lowerChar = "limit".data ∧ p5.length = 5 ∧
      sp ≠ [] ∧ (∀ c ∈ sp, isPySpace c = true) ∧
      ds ≠ [] ∧ (∀ c ∈ ds, Char.isDigit c = true) ∧
      (rest = [] ∨ ∃ r rs, rest = r :: rs ∧ isWordChar r = false) := by
  unfold limitMatch at h
  by_cases hsw : startsWithCI "limit".data s = true
  · rw [if_pos hsw] at h
    obtain ⟨p5, s2, e1, e2, e3⟩ := (startsWithCI_iff _ s).mp hsw
    have hlen5 : p5.length = 5 := by simpa using e2
    have hdrop : s.drop 5 = s2 := by
      rw [e1, ← hlen5, List.drop_left]
    rw [hdrop] at h
    by_cases hsp : (s2.takeWhile isPySpace).isEmpty
    · rw [if_pos hsp] at h; cases h
    · rw [if_neg hsp] at h
      by_cases hds : ((s2.dropWhile isPySpace).takeWhile Char.isDigit).isEmpty
      · rw [if_pos hds] at h; cases h
      · rw [if_neg hds] at h
        have hs2 : s2 = s2.takeWhile isPySpace ++ s2.dropWhile isPySpace :=
          (List.takeWhile_append_dropWhile _ _).symm
        have hu : s2.dropWhile isPySpace =
            (s2.dropWhile isPySpace).takeWhile Char.isDigit ++
              (s2.dropWhile isPySpace).dropWhile Char.isDigit :=
          (List.takeWhile_append_dropWhile _ _).symm
        have hrest :
            ds = (s2.dropWhile isPySpace).takeWhile Char.isDigit ∧
            rest = (s2.dropWhile isPySpace).dropWhile Char.isDigit ∧
            (rest = [] ∨ ∃ r rs, rest = r :: rs ∧ isWordChar r = false) := by
          cases hr : (s2.dropWhile isPySpace).dropWhile Char.isDigit with
          | nil =>
            rw [hr] at h
            replace h : some ((s2.dropWhile isPySpace).takeWhile Char.isDigit,
                ([] : List Char)) = some (ds, rest) := h
            simp only [Option.some.injEq, Prod.mk.injEq] at h
            exact ⟨h.1.symm, h.2.symm, Or.inl h.2.symm⟩
          | cons r rs =>
            rw [hr] at h
            replace h : (if isWordChar r = true then none
                else some ((s2.dropWhile isPySpace).takeWhile Char.isDigit,
                  r :: rs)) = some (ds, rest) := h
            by_cases hw : isWordChar r = true
            · rw [if_pos hw] at h; cases h
            · rw [if_neg hw] at h
              simp only [Option.some.injEq, Prod.mk.injEq] at h
              exact ⟨h.1.symm, h.2.symm,
                Or.inr ⟨r, rs, h.2.symm, by simpa using hw⟩⟩
        obtain ⟨hds_eq, hrest_eq, hcase⟩ := hrest
        refine ⟨p5, s2.takeWhile isPySpace, ?_, e3, hlen5, ?_, ?_, ?_, ?_, hcase⟩
        · rw [e1]
          congr 1
          rw [hds_eq, hrest_eq]
          rw [← hu, ← hs2]
        · intro hcon
          rw [hcon] at hsp
          exact hsp rfl
        · exact fun c hc => List.mem_takeWhile_imp hc
        · intro hcon
          rw [hds_eq] at hcon
          rw [hcon] at hds
          exact hds rfl
        · intro c hc
          rw [hds_eq] at hc
          exact List.mem_takeWhile_imp hc
  · rw [if_neg hsw] at h; cases h

theorem limitMatch_rest_length {s ds rest : List Char}
    (h : limitMatch s = some (ds, rest)) : rest.length + 7 ≤ s.length := by
  obtain ⟨p5, sp, e, _, h5, hsp, _, hds, _, _⟩ := limitMatch_spec h
  rw [e]
  simp only [List.length_append, h5]
  have h1 : 0 < sp.length := List.length_pos.mpr hsp
  have h2 : 0 < ds.length := List.length_pos.mpr hds
  omega

theorem limitMatch_take5 {s ds rest : List Char}
    (h : limitMatch s = some (ds, rest)) :
    (s.take 5).map lowerChar = "limit".data ∧ 5 ≤ s.length := by
  obtain ⟨p5, sp, e, hmap, h5, hsp, _, hds, _, _⟩ := limitMatch_spec h
  constructor
  · rw [e, ← h5, List.take_left]
    exact hmap
  · rw [e]
    simp only [List.length_append]
    omega

/-- `limitMatch` on the replacement text: `LIMIT {L}` followed by a tail
that begins with a non-word character (or is empty) matches with digit
group exactly the digits of `L`. -/
theorem limitMatch_repl (L : Nat) (tail : List Char)
    (htail : tail = [] ∨ ∃ r rs, tail = r :: rs ∧ isWordChar r = false) :
    limitMatch (limitRepl L ++ tail) = some (natDigits L, tail) := by
  have hsw : startsWithCI "limit".data (limitRepl L ++ tail) = true := by
    show startsWithCI "limit".data
      ('L' :: 'I' :: 'M' :: 'I' :: 'T' :: ' ' :: (natDigits L ++ tail)) = true
    show ('l' == lowerChar 'L' && ('i' == lowerChar 'I' &&
      ('m' == lowerChar 'M' && ('i' == lowerChar 'I' &&
        ('t' == lowerChar 'T' && true))))) = true
    decide
  unfold limitMatch
  rw [if_pos hsw]
  have hdrop : (limitRepl L ++ tail).drop 5 =
      ' ' :: (natDigits L ++ tail) := rfl
  rw [hdrop]
  obtain ⟨d, dsr, hd⟩ : ∃ d dsr, natDigits L = d :: dsr := by
    cases hnd : natDigits L with
    | nil => exact absurd hnd (natDigits_ne_nil L)
    | cons d dsr => exact ⟨d, dsr, rfl⟩
  have hd_digit : d.isDigit = true := by
    apply natDigits_all_digits L
    rw [hd]; simp
  have htw : List.takeWhile isPySpace (' ' :: (natDigits L ++ tail)) =
      [' '] := by
    rw [List.takeWhile_cons, if_pos (by decide)]
    rw [hd, List.cons_append, List.takeWhile_cons,
      if_neg (by rw [isDigit_not_space hd_digit]; simp)]
  have hdw : List.dropWhile isPySpace (' ' :: (natDigits L ++ tail)) =
      natDigits L ++ tail := by
    rw [List.dropWhile_cons, if_pos (by decide)]
    rw [hd, List.cons_append, List.dropWhile_cons,
      if_neg (by rw [isDigit_not_space hd_digit]; simp)]
  simp only [htw, hdw]
  simp only [List.isEmpty_cons, Bool.false_eq_true, if_false]
  have htwd : List.takeWhile Char.isDigit (natDigits L ++ tail) =
      natDigits L := by
    rw [List.takeWhile_append]
    rw [if_pos (by
      rw [List.takeWhile_eq_self_iff.mpr (natDigits_all_digits L)])]
    rw [show List.takeWhile Char.isDigit tail = [] by
      rcases htail with h1 | ⟨r, rs, h1, h2⟩
      · rw [h1]; rfl
      · rw [h1, List.takeWhile_cons, if_neg (by
          intro hcon
          rw [isDigit_wordChar hcon] at h2
          cases h2)]]
    simp
  have hdwd : List.dropWhile Char.isDigit (natDigits L ++ tail) = tail := by
    rw [List.dropWhile_append]
    rw [if_pos (by
      rw [List.dropWhile_eq_nil_iff.mpr (natDigits_all_digits L)]
      rfl)]
    rcases htail with h1 | ⟨r, rs, h1, h2⟩
    · rw [h1]; rfl
    · rw [h1, List.dropWhile_cons, if_neg (by
        intro hcon
        rw [isDigit_wordChar hcon] at h2
        cases h2)]
  simp only [htwd, hdwd]
  have hne : ¬ (natDigits L).isEmpty = true := by
    rw [hd]; simp
  rw [if_neg hne]
  rcases htail with h1 | ⟨r, rs, h1, h2⟩
  · rw [h1]
  · rw [h1]
    show (if isWordChar r = true then none
      else some (natDigits L, r :: rs)) = some (natDigits L, r :: rs)
    rw [if_neg (by rw [h2]; simp)]

/-! ## Scanner infrastructure: fuel irrelevance and step equations -/

theorem findAllAux_fuel (f1 : Nat) :
    ∀ (f2 : Nat) (prev : Option Char) (s : List Char),
      s.length ≤ f1 → s.length ≤ f2 →
      findAllAux f1 prev s = findAllAux f2 prev s := by
  induction f1 with
  | zero =>
    intro f2 prev s h1 _
    have hs : s = [] := by
      cases s with
      | nil => rfl
      | cons c cs => simp at h1
    rw [hs]
    cases f2 <;> rfl
  | succ g ih =>
    intro f2 prev s h1 h2
    cases s with
    | nil => cases f2 <;> rfl
    | cons c cs =>
      cases f2 with
      | zero => simp at h2
      | succ g2 =>
        simp only [findAllAux]
        have hcs1 : cs.length ≤ g := by
          simp only [List.length_cons] at h1; omega
        have hcs2 : cs.length ≤ g2 := by
          simp only [List.length_cons] at h2; omega
        by_cases hb : prevBoundary prev = true
        · rw [if_pos hb, if_pos hb]
          cases hm : limitMatch (c :: cs) with
          | none => exact ih g2 (some c) cs hcs1 hcs2
          | some p =>
            obtain ⟨ds, rest⟩ := p
            have hlen := limitMatch_rest_length hm
            simp only [List.length_cons] at hlen
            exact congrArg (digitsVal ds :: ·)
              (ih g2 (some (ds.getLastD '0')) rest (by omega) (by omega))
        · rw [if_neg hb, if_neg hb]
          exact ih g2 (some c) cs hcs1 hcs2

theorem subLimitAux_fuel (L : Nat) (f1 : Nat) :
    ∀ (f2 : Nat) (prev : Option Char) (s : List Char),
      s.length ≤ f1 → s.length ≤ f2 →
      subLimitAux L f1 prev s = subLimitAux L f2 prev s := by
  induction f1 with
  | zero =>
    intro f2 prev s h1 _
    have hs : s = [] := by
      cases s with
      | nil => rfl
      | cons c cs => simp at h1
    rw [hs]
    cases f2 <;> rfl
  | succ g ih =>
    intro f2 prev s h1 h2
    cases s with
    | nil => cases f2 <;> rfl
    | cons c cs =>
      cases f2 with
      | zero => simp at h2
      | succ g2 =>
        simp only [subLimitAux]
        have hcs1 : cs.length ≤ g := by
          simp only [List.length_cons] at h1; omega
        have hcs2 : cs.length ≤ g2 := by
          simp only [List.length_cons] at h2; omega
        by_cases hb : prevBoundary prev = true
        · rw [if_pos hb, if_pos hb]
          cases hm : limitMatch (c :: cs) with
          | none => exact congrArg (c :: ·) (ih g2 (some c) cs hcs1 hcs2)
          | some p =>
            obtain ⟨ds, rest⟩ := p
            have hlen := limitMatch_rest_length hm
            simp only [List.length_cons] at hlen
            exact congrArg (limitRepl L ++ ·)
              (ih g2 (some (ds.getLastD '0')) rest (by omega) (by omega))
        · rw [if_neg hb, if_neg hb]
          exact congrArg (c :: ·) (ih g2 (some c) cs hcs1 hcs2)

/-- `findAllAux` with the canonical fuel, from an arbitrary previous
character. -/
def findAllFrom (prev : Option Char) (s : List Char) : List Nat :=
  findAllAux s.length prev s

/-- `subLimitAux` with the canonical fuel, from an arbitrary previous
character. -/
def subAllFrom (L : Nat) (prev : Option Char) (s : List Char) : List Char :=
  subLimitAux L s.length prev s

theorem limitValues_eq (s : List Char) : limitValues s = findAllFrom none s := rfl

theorem subAllLimit_eq (L : Nat) (s : List Char) :
    subAllLimit L s = subAllFrom L none s := rfl

theorem findAllFrom_nil (prev : Option Char) : findAllFrom prev [] = [] := rfl

theorem subAllFrom_nil (L : Nat) (prev : Option Char) :
    subAllFrom L prev [] = [] := rfl

theorem findAllFrom_cons (prev : Option Char) (c : Char) (cs : List Char) :
    findAllFrom prev (c :: cs) =
      if prevBoundary prev then
        match limitMatch (c :: cs) with
        | some (ds, rest) =>
          digitsVal ds :: findAllFrom (some (ds.getLastD '0')) rest
        | none => findAllFrom (some c) cs
      else findAllFrom (some c) cs := by
  show findAllAux (cs.length + 1) prev (c :: cs) = _
  simp only [findAllAux]
  by_cases hb : prevBoundary prev = true
  · rw [if_pos hb, if_pos hb]
    cases hm : limitMatch (c :: cs) with
    | none => rfl
    | some p =>
      obtain ⟨ds, rest⟩ := p
      have hlen := limitMatch_rest_length hm
      simp only [List.length_cons] at hlen
      exact congrArg (digitsVal ds :: ·)
        (findAllAux_fuel cs.length rest.length (some (ds.getLastD '0')) rest
          (by omega) (by omega))
  · rw [if_neg hb, if_neg hb]
    rfl

theorem subAllFrom_cons (L : Nat) (prev : Option Char) (c : Char)
    (cs : List Char) :
    subAllFrom L prev (c :: cs) =
      if prevBoundary prev then
        match limitMatch (c :: cs) with
        | some (ds, rest) =>
          limitRepl L ++ subAllFrom L (some (ds.getLastD '0')) rest
        | none => c :: subAllFrom L (some c) cs
      else c :: subAllFrom L (some c) cs := by
  show subLimitAux L (cs.length + 1) prev (c :: cs) = _
  simp only [subLimitAux]
  by_cases hb : prevBoundary prev = true
  · rw [if_pos hb, if_pos hb]
    cases hm : limitMatch (c :: cs) with
    | none => rfl
    | some p =>
      obtain ⟨ds, rest⟩ := p
      have hlen := limitMatch_rest_length hm
      simp only [List.length_cons] at hlen
      exact congrArg (limitRepl L ++ ·)
        (subLimitAux_fuel L cs.length rest.length (some (ds.getLastD '0')) rest
          (by omega) (by omega))
  · rw [if_neg hb, if_neg hb]
    rfl

theorem findAllFrom_pb {p q : Option Char}
    (hpq : prevBoundary p = prevBoundary q) (s : List Char) :
    findAllFrom p s = findAllFrom q s := by
  cases s with
  | nil => rfl
  | cons c cs => rw [findAllFrom_cons, findAllFrom_cons, hpq]

theorem findLimitAux_pb {p q : Option Char}
    (hpq : prevBoundary p = prevBoundary q) (s : List Char) :
    findLimitAux p s = findLimitAux q s := by
  cases s with
  | nil => rfl
  | cons c cs =>
    simp only [findLimitAux]
    rw [hpq]

/-- The first-match scanner is the head of the all-matches scanner. -/
theorem findLimitAux_head :
    ∀ (n : Nat) (s : List Char), s.length ≤ n → ∀ (prev : Option Char),
      findLimitAux prev s = (findAllFrom prev s).head? := by
  intro n
  induction n with
  | zero =>
    intro s h prev
    have hs : s = [] := by
      cases s with
      | nil => rfl
      | cons c cs => simp at h
    rw [hs]; rfl
  | succ m ih =>
    intro s h prev
    cases s with
    | nil => rfl
    | cons c cs =>
      rw [findAllFrom_cons]
      simp only [findLimitAux]
      have hcs : cs.length ≤ m := by
        simp only [List.length_cons] at h; omega
      by_cases hb : prevBoundary prev = true
      · rw [if_pos hb, if_pos hb]
        cases hm : limitMatch (c :: cs) with
        | none => exact ih cs hcs (some c)
        | some p =>
          obtain ⟨ds, rest⟩ := p
          rfl
      · rw [if_neg hb, if_neg hb]
        exact ih cs hcs (some c)

/-- When no match exists, the substitution is the identity. -/
theorem subAllFrom_id :
    ∀ (n : Nat) (s : List Char), s.length ≤ n → ∀ (L : Nat) (prev : Option Char),
      findLimitAux prev s = none → subAllFrom L prev s = s := by
  intro n
  induction n with
  | zero =>
    intro s h L prev _
    have hs : s = [] := by
      cases s with
      | nil => rfl
      | cons c cs => simp at h
    rw [hs]; rfl
  | succ m ih =>
    intro s h L prev hnone
    cases s with
    | nil => rfl
    | cons c cs =>
      rw [subAllFrom_cons]
      simp only [findLimitAux] at hnone
      have hcs : cs.length ≤ m := by
        simp only [List.length_cons] at h; omega
      by_cases hb : prevBoundary prev = true
      · rw [if_pos hb]
        rw [if_pos hb] at hnone
        cases hm : limitMatch (c :: cs) with
        | none =>
          rw [hm] at hnone
          rw [ih cs hcs L (some c) hnone]
        | some p =>
          rw [hm] at hnone
          cases hnone
      · rw [if_neg hb]
        rw [if_neg hb] at hnone
        rw [ih cs hcs L (some c) hnone]

/-! ## Congruence of `limitMatch` past a word-character head

`re.sub` replaces a matched span with `LIMIT {limit}`; the text before
the span is unchanged, and both the original span and its replacement
begin with the five letters of `limit` (up to ASCII case).  The next
lemmas show that a `limitMatch` attempt started strictly before such a
span can never read past the span's first character in a way that
distinguishes the two, because that first character is a non-space,
non-digit word character in both. -/

theorem takeWhile_append_head_false {p : Char → Bool} (a : List Char)
    {z : List Char} {z0 : Char} {zr : List Char}
    (hz : z = z0 :: zr) (h0 : p z0 = false) :
    List.takeWhile p (a ++ z) = List.takeWhile p a := by
  rw [List.takeWhile_append]
  by_cases hc : (List.takeWhile p a).length = a.length
  · rw [if_pos hc]
    have ha : List.takeWhile p a = a :=
      (List.takeWhile_prefix p).eq_of_length hc
    rw [hz, List.takeWhile_cons, h0]
    simp [ha]
  · rw [if_neg hc]

theorem dropWhile_append_head_false {p : Char → Bool} (a : List Char)
    {z : List Char} {z0 : Char} {zr : List Char}
    (hz : z = z0 :: zr) (h0 : p z0 = false) :
    List.dropWhile p (a ++ z) =
      if (List.dropWhile p a).isEmpty then z else List.dropWhile p a ++ z := by
  rw [List.dropWhile_append]
  by_cases hc : (List.dropWhile p a).isEmpty = true
  · rw [if_pos hc, if_pos hc, hz, List.dropWhile_cons, h0]
    simp
  · rw [if_neg hc, if_neg hc]

/-- The outcome (digit group only) of a `limitMatch` attempt whose
`LIMIT` letters lie in a 5-character prefix and whose
whitespace-and-digits region lies inside `t'`, when the text after `t'`
begins with a non-space, non-digit word character.  Everything is
computed from `t'` alone. -/
def limitProbe (t' : List Char) : Option (List Char) :=
  if (t'.takeWhile isPySpace).isEmpty then none
  else if (t'.dropWhile isPySpace).isEmpty then none
  else if ((t'.dropWhile isPySpace).takeWhile Char.isDigit).isEmpty then none
  else if ((t'.dropWhile isPySpace).dropWhile Char.isDigit).isEmpty then none
  else if isWordChar (((t'.dropWhile isPySpace).dropWhile Char.isDigit).headD 'a')
    then none
  else some ((t'.dropWhile isPySpace).takeWhile Char.isDigit)

theorem limitMatch_probe (t5 t' : List Char) {z : List Char} (z0 : Char)
    (zr : List Char) (hz : z = z0 :: zr) (hzs : isPySpace z0 = false)
    (hzd : z0.isDigit = false) (hzw : isWordChar z0 = true)
    (h5 : t5.length = 5) :
    (limitMatch (t5 ++ (t' ++ z))).map Prod.fst =
      if startsWithCI "limit".data t5 then limitProbe t' else none := by
  have hsw : startsWithCI "limit".data (t5 ++ (t' ++ z)) =
      startsWithCI "limit".data t5 :=
    startsWithCI_append_left _ t5 (t' ++ z) (by rw [h5]; decide)
  unfold limitMatch
  rw [hsw]
  by_cases hsw5 : startsWithCI "limit".data t5 = true
  · rw [if_pos hsw5, if_pos hsw5]
    have hdrop : (t5 ++ (t' ++ z)).drop 5 = t' ++ z := by
      rw [← h5, List.drop_left]
    rw [hdrop]
    have esp : List.takeWhile isPySpace (t' ++ z) = t'.takeWhile isPySpace :=
      takeWhile_append_head_false t' hz hzs
    simp only [esp]
    unfold limitProbe
    by_cases hsp : (t'.takeWhile isPySpace).isEmpty = true
    · rw [if_pos hsp, if_pos hsp]
      rfl
    · rw [if_neg hsp, if_neg hsp]
      have edp := @dropWhile_append_head_false isPySpace t' _ _ _ hz hzs
      by_cases hd' : (t'.dropWhile isPySpace).isEmpty = true
      · rw [if_pos hd'] at edp
        rw [edp, if_pos hd']
        have hztw : List.takeWhile Char.isDigit z = [] := by
          rw [hz, List.takeWhile_cons, hzd]
          rfl
        rw [hztw]
        rfl
      · rw [if_neg hd'] at edp
        rw [edp, if_neg hd']
        have eds : List.takeWhile Char.isDigit (t'.dropWhile isPySpace ++ z) =
            (t'.dropWhile isPySpace).takeWhile Char.isDigit :=
          takeWhile_append_head_false _ hz hzd
        have edd := @dropWhile_append_head_false Char.isDigit
          (t'.dropWhile isPySpace) _ _ _ hz hzd
        rw [eds]
        by_cases hds : ((t'.dropWhile isPySpace).takeWhile Char.isDigit).isEmpty = true
        · rw [if_pos hds, if_pos hds]
          rfl
        · rw [if_neg hds, if_neg hds]
          by_cases he : ((t'.dropWhile isPySpace).dropWhile Char.isDigit).isEmpty = true
          · rw [if_pos he] at edd
            rw [edd, if_pos he, hz]
            show (if isWordChar z0 = true then none
              else some ((t'.dropWhile isPySpace).takeWhile Char.isDigit,
                z0 :: zr)).map Prod.fst = none
            rw [if_pos hzw]
            rfl
          · rw [if_neg he] at edd
            rw [edd, if_neg he]
            obtain ⟨e0, er, hee⟩ :
                ∃ e0 er, (t'.dropWhile isPySpace).dropWhile Char.isDigit =
                  e0 :: er := by
              cases hc : (t'.dropWhile isPySpace).dropWhile Char.isDigit with
              | nil => rw [hc] at he; exact absurd rfl he
              | cons e0 er => exact ⟨e0, er, rfl⟩
            rw [hee]
            show (if isWordChar e0 = true then none
              else some ((t'.dropWhile isPySpace).takeWhile Char.isDigit,
                e0 :: (er ++ z))).map Prod.fst =
              if isWordChar ((e0 :: er).headD 'a') = true then none
              else some ((t'.dropWhile isPySpace).takeWhile Char.isDigit)
            by_cases hw : isWordChar e0 = true
            · rw [if_pos hw, if_pos (by simpa using hw)]
              rfl
            · rw [if_neg hw, if_neg (by simpa using hw)]
              rfl
  · rw [if_neg hsw5, if_neg hsw5]
    rfl

theorem startsWithCI_limit_short (t : List Char) (ht : t ≠ [])
    (hlen : t.length ≤ 4) {x : List Char} {x0 : Char} {xr : List Char}
    (hx : x = x0 :: xr) (h0 : lowerChar x0 = 'l') :
    startsWithCI "limit".data (t ++ x) = false := by
  obtain ⟨a, t1, rfl⟩ : ∃ a t1, t = a :: t1 := by
    cases t with
    | nil => exact absurd rfl ht
    | cons a t1 => exact ⟨a, t1, rfl⟩
  cases t1 with
  | nil =>
    rw [hx]
    show (('l' == lowerChar a) &&
      (('i' == lowerChar x0) && startsWithCI ['m', 'i', 't'] xr)) = false
    rw [h0]
    simp
  | cons b t2 =>
    cases t2 with
    | nil =>
      rw [hx]
      show (('l' == lowerChar a) && (('i' == lowerChar b) &&
        (('m' == lowerChar x0) && startsWithCI ['i', 't'] xr))) = false
      rw [h0]
      simp
    | cons c t3 =>
      cases t3 with
      | nil =>
        rw [hx]
        show (('l' == lowerChar a) && (('i' == lowerChar b) &&
          (('m' == lowerChar c) && (('i' == lowerChar x0) &&
            startsWithCI ['t'] xr)))) = false
        rw [h0]
        simp
      | cons d t4 =>
        cases t4 with
        | nil =>
          rw [hx]
          show (('l' == lowerChar a) && (('i' == lowerChar b) &&
            (('m' == lowerChar c) && (('i' == lowerChar d) &&
              (('t' == lowerChar x0) && true))))) = false
          rw [h0]
          simp
        | cons e t5 => simp at hlen

theorem limitMatch_congr (t x y : List Char) (ht : t ≠ [])
    (hx : (x.take 5).map lowerChar = "limit".data) (hxl : 5 ≤ x.length)
    (hy : (y.take 5).map lowerChar = "limit".data) (hyl : 5 ≤ y.length) :
    (limitMatch (t ++ x)).map Prod.fst = (limitMatch (t ++ y)).map Prod.fst := by
  obtain ⟨x0, xr, hxe⟩ : ∃ x0 xr, x = x0 :: xr := by
    cases x with
    | nil => simp at hxl
    | cons x0 xr => exact ⟨x0, xr, rfl⟩
  obtain ⟨y0, yr, hye⟩ : ∃ y0 yr, y = y0 :: yr := by
    cases y with
    | nil => simp at hyl
    | cons y0 yr => exact ⟨y0, yr, rfl⟩
  have hx0 : lowerChar x0 = 'l' := by
    rw [hxe, List.take_succ_cons, List.map_cons] at hx
    have hlit : ("limit".data : List Char) =
      'l' :: ['i', 'm', 'i', 't'] := rfl
    rw [hlit] at hx
    exact (List.cons.inj hx).1
  have hy0 : lowerChar y0 = 'l' := by
    rw [hye, List.take_succ_cons, List.map_cons] at hy
    have hlit : ("limit".data : List Char) =
      'l' :: ['i', 'm', 'i', 't'] := rfl
    rw [hlit] at hy
    exact (List.cons.inj hy).1
  obtain ⟨hxs, hxd, hxw⟩ := head_l_classes hx0
  obtain ⟨hys, hyd, hyw⟩ := head_l_classes hy0
  by_cases hlen : 5 ≤ t.length
  · have h5 : (t.take 5).length = 5 := by
      rw [List.length_take]; omega
    have hx' : (limitMatch (t ++ x)).map Prod.fst =
        if startsWithCI "limit".data (t.take 5) then limitProbe (t.drop 5)
        else none := by
      conv_lhs => rw [← List.take_append_drop 5 t, List.append_assoc]
      exact limitMatch_probe (t.take 5) (t.drop 5) x0 xr hxe hxs hxd hxw h5
    have hy' : (limitMatch (t ++ y)).map Prod.fst =
        if startsWithCI "limit".data (t.take 5) then limitProbe (t.drop 5)
        else none := by
      conv_lhs => rw [← List.take_append_drop 5 t, List.append_assoc]
      exact limitMatch_probe (t.take 5) (t.drop 5) y0 yr hye hys hyd hyw h5
    rw [hx', hy']
  · have hle : t.length ≤ 4 := by omega
    have hx' : limitMatch (t ++ x) = none := by
      unfold limitMatch
      rw [if_neg (by
        rw [startsWithCI_limit_short t ht hle hxe hx0]
        simp)]
    have hy' : limitMatch (t ++ y) = none := by
      unfold limitMatch
      rw [if_neg (by
        rw [startsWithCI_limit_short t ht hle hye hy0]
        simp)]
    rw [hx', hy']

/-- Decomposition of a text with a first match: the substitution output is
the unchanged prefix, the replacement, and the recursively substituted
remainder. -/
theorem subAllFrom_decomp (L : Nat) :
    ∀ (n : Nat) (s : List Char), s.length ≤ n →
      ∀ (prev : Option Char) (v : Nat), findLimitAux prev s = some v →
      ∃ a b ds rest, s = a ++ b ∧ limitMatch b = some (ds, rest) ∧
        subAllFrom L prev s =
          a ++ (limitRepl L ++ subAllFrom L (some (ds.getLastD '0')) rest) := by
  intro n
  induction n with
  | zero =>
    intro s h prev v hf
    have hs : s = [] := by
      cases s with
      | nil => rfl
      | cons c cs => simp at h
    rw [hs] at hf
    simp [findLimitAux] at hf
  | succ m ih =>
    intro s h prev v hf
    cases s with
    | nil => simp [findLimitAux] at hf
    | cons c cs =>
      have hcs : cs.length ≤ m := by
        simp only [List.length_cons] at h; omega
      simp only [findLimitAux] at hf
      rw [subAllFrom_cons]
      by_cases hb : prevBoundary prev = true
      · rw [if_pos hb] at hf
        rw [if_pos hb]
        cases hm : limitMatch (c :: cs) with
        | some p =>
          obtain ⟨ds, rest⟩ := p
          refine ⟨[], c :: cs, ds, rest, by simp, hm, ?_⟩
          simp only [hm]
          simp
        | none =>
          rw [hm] at hf
          obtain ⟨a, b, ds, rest, e1, e2, e3⟩ := ih cs hcs (some c) v hf
          refine ⟨c :: a, b, ds, rest, by simp [e1], e2, ?_⟩
          simp only [hm]
          rw [e3]
          simp
      · rw [if_neg hb] at hf
        rw [if_neg hb]
        obtain ⟨a, b, ds, rest, e1, e2, e3⟩ := ih cs hcs (some c) v hf
        refine ⟨c :: a, b, ds, rest, by simp [e1], e2, ?_⟩
        rw [e3]
        simp

theorem limitRepl_take5 (L : Nat) (T : List Char) :
    ((limitRepl L ++ T).take 5).map lowerChar = "limit".data := by
  show (('L' :: 'I' :: 'M' :: 'I' :: 'T' :: ' ' ::
    (natDigits L ++ T)).take 5).map lowerChar = "limit".data
  rw [show ('L' :: 'I' :: 'M' :: 'I' :: 'T' :: ' ' ::
    (natDigits L ++ T)).take 5 = ['L', 'I', 'M', 'I', 'T'] from rfl]
  decide

theorem limitRepl_len5 (L : Nat) (T : List Char) :
    5 ≤ (limitRepl L ++ T).length := by
  show 5 ≤ ('L' :: 'I' :: 'M' :: 'I' :: 'T' :: ' ' ::
    (natDigits L ++ T)).length
  simp

/-- The tail of a substitution output begins with a non-word character
(or is empty) whenever the matched remainder did. -/
theorem subAllFrom_tail_shape (L : Nat) {ds rest : List Char}
    (hds : ds ≠ []) (hdig : ∀ c ∈ ds, Char.isDigit c = true)
    (hrest : rest = [] ∨ ∃ r rs, rest = r :: rs ∧ isWordChar r = false) :
    subAllFrom L (some (ds.getLastD '0')) rest = [] ∨
      ∃ r rs, subAllFrom L (some (ds.getLastD '0')) rest = r :: rs ∧
        isWordChar r = false := by
  have hdL : (ds.getLastD '0').isDigit = true :=
    hdig _ (getLastD_mem ds '0' hds)
  rcases hrest with h1 | ⟨r, rs, h1, h2⟩
  · left
    rw [h1]
    rfl
  · right
    rw [h1, subAllFrom_cons]
    have hpb : prevBoundary (some (ds.getLastD '0')) = false := by
      show (!isWordChar (ds.getLastD '0')) = false
      rw [isDigit_wordChar hdL]
      rfl
    rw [hpb]
    simp only [Bool.false_eq_true, if_false]
    exact ⟨r, subAllFrom L (some r) rs, rfl, h2⟩

/-- Core lemma: the match values of the substituted text are exactly the
original match values, each rewritten to the ceiling. -/
theorem findAllFrom_subAllFrom (L : Nat) :
    ∀ (n : Nat) (s : List Char), s.length ≤ n → ∀ (prev : Option Char),
      findAllFrom prev (subAllFrom L prev s) =
        (findAllFrom prev s).map (fun _ => L) := by
  intro n
  induction n with
  | zero =>
    intro s h prev
    have hs : s = [] := by
      cases s with
      | nil => rfl
      | cons c cs => simp at h
    rw [hs]
    rfl
  | succ m ih =>
    intro s h prev
    cases s with
    | nil => rfl
    | cons c cs =>
      have hcs : cs.length ≤ m := by
        simp only [List.length_cons] at h; omega
      rw [subAllFrom_cons]
      conv_rhs => rw [findAllFrom_cons]
      by_cases hb : prevBoundary prev = true
      · rw [if_pos hb, if_pos hb]
        cases hm : limitMatch (c :: cs) with
        | some p =>
          obtain ⟨ds, rest⟩ := p
          obtain ⟨p5, sp, _, _, _, _, _, hdsne, hdig, hrest⟩ :=
            limitMatch_spec hm
          have hrlen := limitMatch_rest_length hm
          simp only [List.length_cons] at hrlen
          have hdL : (ds.getLastD '0').isDigit = true :=
            hdig _ (getLastD_mem ds '0' hdsne)
          have htail := subAllFrom_tail_shape L hdsne hdig hrest
          have hrepl := limitMatch_repl L
            (subAllFrom L (some (ds.getLastD '0')) rest) htail
          have hform : limitRepl L ++ subAllFrom L (some (ds.getLastD '0')) rest =
              'L' :: ('I' :: 'M' :: 'I' :: 'T' :: ' ' ::
                (natDigits L ++ subAllFrom L (some (ds.getLastD '0')) rest)) := rfl
          show findAllFrom prev
              (limitRepl L ++ subAllFrom L (some (ds.getLastD '0')) rest) =
            List.map (fun _ => L)
              (digitsVal ds :: findAllFrom (some (ds.getLastD '0')) rest)
          rw [hform, findAllFrom_cons, if_pos hb]
          have hrepl' : limitMatch ('L' :: ('I' :: 'M' :: 'I' :: 'T' :: ' ' ::
              (natDigits L ++ subAllFrom L (some (ds.getLastD '0')) rest))) =
              some (natDigits L, subAllFrom L (some (ds.getLastD '0')) rest) :=
            hrepl
          simp only [hrepl']
          rw [digitsVal_natDigits]
          rw [List.map_cons]
          congr 1
          have hpb : prevBoundary (some ((natDigits L).getLastD '0')) =
              prevBoundary (some (ds.getLastD '0')) := by
            show (!isWordChar _) = (!isWordChar _)
            rw [isDigit_wordChar (natDigits_getLastD_isDigit L),
              isDigit_wordChar hdL]
          rw [findAllFrom_pb hpb]
          exact ih rest (by omega) (some (ds.getLastD '0'))
        | none =>
          show findAllFrom prev (c :: subAllFrom L (some c) cs) =
            List.map (fun _ => L) (findAllFrom (some c) cs)
          have hnomatch : limitMatch
              (c :: subAllFrom L (some c) cs) = none := by
            cases hfo : findLimitAux (some c) cs with
            | none =>
              rw [subAllFrom_id cs.length cs (le_refl _) L (some c) hfo]
              exact hm
            | some v =>
              obtain ⟨a, b, ds, rest, e1, e2, e3⟩ :=
                subAllFrom_decomp L cs.length cs (le_refl _) (some c) v hfo
              obtain ⟨htake5, hlen5⟩ := limitMatch_take5 e2
              have hcongr := limitMatch_congr (c :: a) b
                (limitRepl L ++ subAllFrom L (some (ds.getLastD '0')) rest)
                (by simp) htake5 hlen5 (limitRepl_take5 L _) (limitRepl_len5 L _)
              rw [show (c :: a) ++ b = c :: (a ++ b) from rfl, ← e1, hm] at hcongr
              rw [show (c :: a) ++ (limitRepl L ++
                subAllFrom L (some (ds.getLastD '0')) rest) =
                  c :: (a ++ (limitRepl L ++
                    subAllFrom L (some (ds.getLastD '0')) rest)) from rfl,
                ← e3] at hcongr
              exact Option.map_eq_none'.mp hcongr.symm
          rw [findAllFrom_cons, if_pos hb]
          simp only [hnomatch]
          exact ih cs hcs (some c)
      · rw [if_neg hb, if_neg hb]
        rw [findAllFrom_cons, if_neg hb]
        exact ih cs hcs (some c)

theorem startsWithCI_limit_short_nl (t : List Char) (hlen : t.length ≤ 4)
    (z : List Char) :
    startsWithCI "limit".data (t ++ '\n' :: z) = false := by
  cases t with
  | nil =>
    show (('l' == lowerChar '\n') && startsWithCI ['i', 'm', 'i', 't'] z) = false
    rw [show ('l' == lowerChar '\n') = false from rfl]
    simp
  | cons a t1 =>
    cases t1 with
    | nil =>
      show (('l' == lowerChar a) && (('i' == lowerChar '\n') &&
        startsWithCI ['m', 'i', 't'] z)) = false
      rw [show ('i' == lowerChar '\n') = false from rfl]
      simp
    | cons b t2 =>
      cases t2 with
      | nil =>
        show (('l' == lowerChar a) && (('i' == lowerChar b) &&
          (('m' == lowerChar '\n') && startsWithCI ['i', 't'] z))) = false
        rw [show ('m' == lowerChar '\n') = false from rfl]
        simp
      | cons c t3 =>
        cases t3 with
        | nil =>
          show (('l' == lowerChar a) && (('i' == lowerChar b) &&
            (('m' == lowerChar c) && (('i' == lowerChar '\n') &&
              startsWithCI ['t'] z)))) = false
          rw [show ('i' == lowerChar '\n') = false from rfl]
          simp
        | cons d t4 =>
          cases t4 with
          | nil =>
            show (('l' == lowerChar a) && (('i' == lowerChar b) &&
              (('m' == lowerChar c) && (('i' == lowerChar d) &&
                (('t' == lowerChar '\n') && startsWithCI [] z))))) = false
            rw [show ('t' == lowerChar '\n') = false from rfl]
            simp
          | cons e t5 => simp at hlen

/-- A failed `limitMatch` attempt stays failed when the text is extended
with a newline followed by an `L` (the shape of the appended
`\nLIMIT {limit}` clause): the attempt's whitespace run can cross the
newline but then meets the letter, which is neither a digit nor
whitespace. -/
theorem limitMatch_append_nl {t : List Char} (h : limitMatch t = none)
    (z : List Char) :
    limitMatch (t ++ ('\n' :: 'L' :: z)) = none := by
  by_cases hsw : startsWithCI "limit".data t = true
  · obtain ⟨t5, t2, e1, e2, e3⟩ := (startsWithCI_iff _ t).mp hsw
    have h5 : t5.length = 5 := by simpa using e2
    simp only [limitMatch] at h ⊢
    have hswu : startsWithCI "limit".data (t ++ ('\n' :: 'L' :: z)) = true := by
      rw [startsWithCI_append_left _ t _ (by
        rw [e1, List.length_append, h5]
        have h5l : ("limit".data).length = 5 := rfl
        omega)]
      exact hsw
    rw [if_pos hsw] at h
    rw [if_pos hswu]
    have hdropt : t.drop 5 = t2 := by rw [e1, ← h5, List.drop_left]
    have hdropu : (t ++ ('\n' :: 'L' :: z)).drop 5 =
        t2 ++ ('\n' :: 'L' :: z) := by
      rw [e1, List.append_assoc, ← h5, List.drop_left]
    rw [hdropt] at h
    rw [hdropu]
    by_cases hall : ∀ x ∈ t2, isPySpace x = true
    · have htw : List.takeWhile isPySpace (t2 ++ ('\n' :: 'L' :: z)) =
          t2 ++ ['\n'] := by
        rw [List.takeWhile_append,
          if_pos (by rw [List.takeWhile_eq_self_iff.mpr hall])]
        rw [List.takeWhile_cons, if_pos (by decide), List.takeWhile_cons,
          if_neg (by decide)]
      have hdw : List.dropWhile isPySpace (t2 ++ ('\n' :: 'L' :: z)) =
          'L' :: z := by
        rw [List.dropWhile_append,
          if_pos (by rw [List.dropWhile_eq_nil_iff.mpr hall]; rfl)]
        rw [List.dropWhile_cons, if_pos (by decide), List.dropWhile_cons,
          if_neg (by decide)]
      rw [htw, hdw]
      rw [if_neg (by simp)]
      rw [show List.takeWhile Char.isDigit ('L' :: z) = [] by
        rw [List.takeWhile_cons, if_neg (by decide)]]
      rfl
    · have hnall : ¬ (List.takeWhile isPySpace t2).length = t2.length := by
        intro hcon
        exact hall (List.takeWhile_eq_self_iff.mp
          ((List.takeWhile_prefix _).eq_of_length hcon))
      have hd2 : ¬ List.dropWhile isPySpace t2 = [] := by
        intro hcon
        exact hall (List.dropWhile_eq_nil_iff.mp hcon)
      have htw : List.takeWhile isPySpace (t2 ++ ('\n' :: 'L' :: z)) =
          List.takeWhile isPySpace t2 := by
        rw [List.takeWhile_append, if_neg hnall]
      have hdw : List.dropWhile isPySpace (t2 ++ ('\n' :: 'L' :: z)) =
          List.dropWhile isPySpace t2 ++ ('\n' :: 'L' :: z) := by
        rw [List.dropWhile_append, if_neg (by
          intro hcon
          exact hd2 (List.isEmpty_iff.mp hcon))]
      rw [htw, hdw]
      by_cases hsp : (List.takeWhile isPySpace t2).isEmpty = true
      · rw [if_pos hsp]
      · rw [if_neg hsp]
        rw [if_neg hsp] at h
        by_cases hdall : ∀ x ∈ List.dropWhile isPySpace t2,
            Char.isDigit x = true
        · have hds2 : List.takeWhile Char.isDigit
              (List.dropWhile isPySpace t2) = List.dropWhile isPySpace t2 :=
            List.takeWhile_eq_self_iff.mpr hdall
          have hdr : List.dropWhile Char.isDigit
              (List.dropWhile isPySpace t2) = [] :=
            List.dropWhile_eq_nil_iff.mpr hdall
          rw [hds2, hdr] at h
          rw [if_neg (by
            intro hcon
            exact hd2 (List.isEmpty_iff.mp hcon))] at h
          simp at h
        · have hnall2 : ¬ (List.takeWhile Char.isDigit
              (List.dropWhile isPySpace t2)).length =
                (List.dropWhile isPySpace t2).length := by
            intro hcon
            exact hdall (List.takeWhile_eq_self_iff.mp
              ((List.takeWhile_prefix _).eq_of_length hcon))
          have he2 : ¬ List.dropWhile Char.isDigit
              (List.dropWhile isPySpace t2) = [] := by
            intro hcon
            exact hdall (List.dropWhile_eq_nil_iff.mp hcon)
          have htwd : List.takeWhile Char.isDigit
              (List.dropWhile isPySpace t2 ++ ('\n' :: 'L' :: z)) =
              List.takeWhile Char.isDigit (List.dropWhile isPySpace t2) := by
            rw [List.takeWhile_append, if_neg hnall2]
          have hdwd : List.dropWhile Char.isDigit
              (List.dropWhile isPySpace t2 ++ ('\n' :: 'L' :: z)) =
              List.dropWhile Char.isDigit (List.dropWhile isPySpace t2) ++
                ('\n' :: 'L' :: z) := by
            rw [List.dropWhile_append, if_neg (by
              intro hcon
              exact he2 (List.isEmpty_iff.mp hcon))]
          rw [htwd, hdwd]
          by_cases hds : (List.takeWhile Char.isDigit
              (List.dropWhile isPySpace t2)).isEmpty = true
          · rw [if_pos hds]
          · rw [if_neg hds]
            rw [if_neg hds] at h
            obtain ⟨e0, er, hee⟩ : ∃ e0 er, List.dropWhile Char.isDigit
                (List.dropWhile isPySpace t2) = e0 :: er := by
              cases hc : List.dropWhile Char.isDigit
                  (List.dropWhile isPySpace t2) with
              | nil => exact absurd hc he2
              | cons e0 er => exact ⟨e0, er, rfl⟩
            rw [hee] at h
            rw [hee]
            replace h : (if isWordChar e0 = true then none
              else some (List.takeWhile Char.isDigit
                (List.dropWhile isPySpace t2), e0 :: er)) = none := h
            by_cases hw : isWordChar e0 = true
            · show (if isWordChar e0 = true then none
                else some (List.takeWhile Char.isDigit
                  (List.dropWhile isPySpace t2),
                    e0 :: (er ++ ('\n' :: 'L' :: z)))) = none
              rw [if_pos hw]
            · rw [if_neg hw] at h
              exact Option.noConfusion h
  · simp only [limitMatch]
    by_cases hlen : 5 ≤ t.length
    · rw [if_neg (by
        rw [startsWithCI_append_left _ t _ (by simpa using hlen)]
        exact hsw)]
    · rw [if_neg (by
        rw [show t ++ ('\n' :: 'L' :: z) = t ++ '\n' :: ('L' :: z) from rfl,
          startsWithCI_limit_short_nl t (by omega) ('L' :: z)]
        simp)]

/-- Appending a newline followed by the replacement clause to a text with
no match creates a match whose value is the appended limit. -/
theorem findLimitAux_append_repl (L : Nat) :
    ∀ (t : List Char) (prev : Option Char), findLimitAux prev t = none →
      findLimitAux prev (t ++ ('\n' :: limitRepl L)) = some L := by
  intro t
  induction t with
  | nil =>
    intro prev _
    show findLimitAux prev
      ('\n' :: 'L' :: 'I' :: 'M' :: 'I' :: 'T' :: ' ' :: natDigits L) = some L
    have hm : limitMatch
        ('L' :: 'I' :: 'M' :: 'I' :: 'T' :: ' ' :: natDigits L) =
          some (natDigits L, []) := by
      have h0 := limitMatch_repl L [] (Or.inl rfl)
      rwa [List.append_nil] at h0
    have hstep : findLimitAux (some '\n')
        ('L' :: 'I' :: 'M' :: 'I' :: 'T' :: ' ' :: natDigits L) = some L := by
      simp only [findLimitAux]
      rw [if_pos (by decide)]
      rw [hm]
      show some (digitsVal (natDigits L)) = some L
      rw [digitsVal_natDigits]
    have hmn : limitMatch
        ('\n' :: 'L' :: 'I' :: 'M' :: 'I' :: 'T' :: ' ' :: natDigits L) =
          none :=
      limitMatch_append_nl (show limitMatch [] = none from rfl)
        ('I' :: 'M' :: 'I' :: 'T' :: ' ' :: natDigits L)
    simp only [findLimitAux]
    by_cases hb : prevBoundary prev = true
    · rw [if_pos hb, hmn]
      exact hstep
    · rw [if_neg hb]
      exact hstep
  | cons c cs ih =>
    intro prev h
    simp only [findLimitAux] at h
    show findLimitAux prev (c :: (cs ++ ('\n' :: limitRepl L))) = some L
    simp only [findLimitAux]
    by_cases hb : prevBoundary prev = true
    · rw [if_pos hb] at h ⊢
      cases hm : limitMatch (c :: cs) with
      | some p =>
        rw [hm] at h
        cases h
      | none =>
        rw [hm] at h
        have hmn2 : limitMatch (c :: (cs ++ ('\n' :: limitRepl L))) = none :=
          limitMatch_append_nl hm
            ('I' :: 'M' :: 'I' :: 'T' :: ' ' :: natDigits L)
        rw [hmn2]
        exact ih (some c) h
    · rw [if_neg hb] at h ⊢
      exact ih (some c) h

/-- After rewriting, the first match of the substituted text has the new
value. -/
theorem findLimitW_subAll (sql : String) (N L : Nat)
    (h : findLimitAux none sql.data = some L) :
    findLimitAux none (subAllLimit N sql.data) = some N := by
  rw [subAllLimit_eq]
  rw [findLimitAux_head (subAllFrom N none sql.data).length
    (subAllFrom N none sql.data) (Nat.le_refl _) none]
  rw [findAllFrom_subAllFrom N sql.data.length sql.data (Nat.le_refl _) none]
  rw [List.head?_map]
  have h2 : (findAllFrom none sql.data).head? = some L := by
    rw [← findLimitAux_head sql.data.length sql.data (Nat.le_refl _) none]
    exact h
  rw [h2]
  rfl

/-- When the first match already carries the ceiling value, `ensure_limit`
returns its input unchanged. -/
theorem ensure_limit_of_eq (s : String) (N : Nat)
    (h : findLimitAux none s.data = some N) : ensure_limit s N = s := by
  unfold ensure_limit
  rw [h]
  show (if N < N then String.mk (subAllLimit N s.data) else s) = s
  rw [if_neg (by omega)]

/-- C4: `ensure_limit(sql, N)` yields a statement whose first textual
limit value is exactly `N` when `sql` has no limit clause (the clause
`\nLIMIT N` is appended) and when the existing first limit value `L`
exceeds `N` (rewritten down); when `L ≤ N` the statement is returned
unchanged, keeping its original limit. -/
theorem ensure_limit_spec (sql : String) (N : Nat) :
    (findLimitW sql.data = none →
      ensure_limit sql N = String.mk (sql.data ++ ('\n' :: limitRepl N)) ∧
      findLimitW (ensure_limit sql N).data = some N) ∧
    (∀ L, findLimitW sql.data = some L → N < L →
      findLimitW (ensure_limit sql N).data = some N) ∧
    (∀ L, findLimitW sql.data = some L → L ≤ N →
      ensure_limit sql N = sql) := by
  refine ⟨?_, ?_, ?_⟩
  · intro h
    have h' : findLimitAux none sql.data = none := h
    have e : ensure_limit sql N =
        String.mk (sql.data ++ ('\n' :: limitRepl N)) := by
      unfold ensure_limit
      rw [h']
    refine ⟨e, ?_⟩
    rw [e]
    show findLimitAux none (sql.data ++ ('\n' :: limitRepl N)) = some N
    exact findLimitAux_append_repl N sql.data none h'
  · intro L h hlt
    have h' : findLimitAux none sql.data = some L := h
    have e : ensure_limit sql N = String.mk (subAllLimit N sql.data) := by
      unfold ensure_limit
      rw [h']
      show (if N < L then String.mk (subAllLimit N sql.data) else sql) =
        String.mk (subAllLimit N sql.data)
      rw [if_pos hlt]
    rw [e]
    show findLimitAux none (subAllLimit N sql.data) = some N
    exact findLimitW_subAll sql N L h'
  · intro L h hle
    have h' : findLimitAux none sql.data = some L := h
    unfold ensure_limit
    rw [h']
    show (if N < L then String.mk (subAllLimit N sql.data) else sql) = sql
    rw [if_neg (by omega)]

set_option maxRecDepth 8000 in
/-- Concrete instances of the three branches of C4. -/
theorem ensure_limit_spec_witness :
    (findLimitW ("SELECT a FROM t").data = none ∧
      findLimitW (ensure_limit "SELECT a FROM t" 50).data = some 50) ∧
    (findLimitW ("SELECT a FROM t LIMIT 500").data = some 500 ∧ 50 < 500 ∧
      findLimitW (ensure_limit "SELECT a FROM t LIMIT 500" 50).data =
        some 50) ∧
    (findLimitW ("SELECT a FROM t LIMIT 10").data = some 10 ∧ 10 ≤ 50 ∧
      ensure_limit "SELECT a FROM t LIMIT 10" 50 =
        "SELECT a FROM t LIMIT 10") := by
  refine ⟨⟨by decide,
      ((ensure_limit_spec "SELECT a FROM t" 50).1 (by decide)).2⟩,
    ⟨by decide, by decide,
      (ensure_limit_spec "SELECT a FROM t LIMIT 500" 50).2.1 500
        (by decide) (by decide)⟩,
    ⟨by decide, by decide,
      (ensure_limit_spec "SELECT a FROM t LIMIT 10" 50).2.2 10
        (by decide) (by decide)⟩⟩

/-- C5: applying `ensure_limit` twice with the same ceiling gives the
same result as applying it once. -/
theorem ensure_limit_idem (sql : String) (N : Nat) :
    ensure_limit (ensure_limit sql N) N = ensure_limit sql N := by
  cases hm : findLimitAux none sql.data with
  | none =>
    have e : ensure_limit sql N =
        String.mk (sql.data ++ ('\n' :: limitRepl N)) := by
      unfold ensure_limit
      rw [hm]
    have hf : findLimitAux none (ensure_limit sql N).data = some N := by
      rw [e]
      show findLimitAux none (sql.data ++ ('\n' :: limitRepl N)) = some N
      exact findLimitAux_append_repl N sql.data none hm
    exact ensure_limit_of_eq (ensure_limit sql N) N hf
  | some L =>
    by_cases hlt : N < L
    · have e : ensure_limit sql N = String.mk (subAllLimit N sql.data) := by
        unfold ensure_limit
        rw [hm]
        show (if N < L then String.mk (subAllLimit N sql.data) else sql) =
          String.mk (subAllLimit N sql.data)
        rw [if_pos hlt]
      have hf : findLimitAux none (ensure_limit sql N).data = some N := by
        rw [e]
        show findLimitAux none (subAllLimit N sql.data) = some N
        exact findLimitW_subAll sql N L hm
      exact ensure_limit_of_eq (ensure_limit sql N) N hf
    · have e : ensure_limit sql N = sql := by
        unfold ensure_limit
        rw [hm]
        show (if N < L then String.mk (subAllLimit N sql.data) else sql) = sql
        rw [if_neg hlt]
      rw [e]
      exact e

/-- C10: when the first textual limit value exceeds the ceiling, every
limit occurrence in the statement — including ones inside nested
subqueries — is rewritten to the ceiling, not only the first. -/
theorem ensure_limit_rewrites_all (sql : String) (L N : Nat)
    (h : findLimitW sql.data = some L) (hlt : N < L) :
    limitValues (ensure_limit sql N).data =
      (limitValues sql.data).map (fun _ => N) := by
  have h' : findLimitAux none sql.data = some L := h
  have e : ensure_limit sql N = String.mk (subAllLimit N sql.data) := by
    unfold ensure_limit
    rw [h']
    show (if N < L then String.mk (subAllLimit N sql.data) else sql) =
      String.mk (subAllLimit N sql.data)
    rw [if_pos hlt]
  rw [e]
  show limitValues (subAllLimit N sql.data) =
    (limitValues sql.data).map (fun _ => N)
  rw [limitValues_eq, limitValues_eq, subAllLimit_eq]
  exact findAllFrom_subAllFrom N sql.data.length sql.data (Nat.le_refl _) none

set_option maxRecDepth 8000 in
/-- C10 at a statement with a nested subquery limit: both occurrences
are rewritten to the ceiling. -/
theorem ensure_limit_rewrites_all_witness :
    findLimitW ("SELECT * FROM (SELECT 1 LIMIT 500) x LIMIT 400").data =
      some 500 ∧
    200 < 500 ∧
    limitValues ("SELECT * FROM (SELECT 1 LIMIT 500) x LIMIT 400").data =
      [500, 400] ∧
    limitValues
      (ensure_limit "SELECT * FROM (SELECT 1 LIMIT 500) x LIMIT 400"
        200).data = [200, 200] := by
  refine ⟨by decide, by decide, by decide, ?_⟩
  rw [ensure_limit_rewrites_all
    "SELECT * FROM (SELECT 1 LIMIT 500) x LIMIT 400" 500 200
    (by decide) (by decide)]
  decide
